import Mathlib

/-!
# Verification of the deep_space Cosmos SDK signing core

A shallow embedding, in Lean 4, of the key/address/transaction machinery of
the `deep_space` Rust crate (src/address.rs, src/public_key.rs,
src/private_key.rs, src/utils.rs, src/coin.rs) together with the behaviour of
its direct cryptographic and codec dependencies (SHA-2, HMAC-SHA512,
RIPEMD-160, the `bech32` crate, prost protobuf encoding).  Machine integers
are modelled as `Nat` with explicit reduction `% 2^w`; byte strings are
`List Nat` whose elements are below 256; fallible Rust functions return
`Except`.
-/

namespace DS

/-! ## Bytes and big-endian integers -/

/-- Big-endian bytes of `n`, fixed width `w` bytes (like `Uint256::to_be_bytes`
followed by `copy_from_slice`, and `u32::to_be_bytes`): byte `i` holds bits
`8*(w-1-i) .. 8*w-1-8*i` of `n`. -/
def natToBeBytes (w n : Nat) : List Nat :=
  (List.range w).map (fun i => (n >>> (8 * (w - 1 - i))) % 256)

/-- Big-endian value of a byte list (like `Uint256::from_be_bytes`). -/
def natFromBeBytes (l : List Nat) : Nat :=
  l.foldl (fun acc b => acc * 256 + b) 0


/-- Accumulator-based worker for `chunkList`; `acc` holds the current chunk
reversed and `cnt` the number of slots left in it. -/
def chunkAux (k : Nat) (acc : List α) (cnt : Nat) : List α → List (List α)
  | [] => if acc.isEmpty then [] else [acc.reverse]
  | x :: xs =>
      if cnt ≤ 1 then ((x :: acc).reverse) :: chunkAux k [] k xs
      else chunkAux k (x :: acc) (cnt - 1) xs

/-- Chop a list into consecutive chunks of `k` elements (the final chunk may
be shorter when `k` does not divide the length). -/
def chunkList (k : Nat) (l : List α) : List (List α) :=
  if k = 0 then [] else chunkAux k [] k l

/-! ## SHA-256 and SHA-512

Executable embeddings of FIPS 180-4 SHA-256 and SHA-512 (the `sha2` crate
used by `private_key.rs`, `public_key.rs` and `address.rs`), over `Nat`
words reduced mod `2^32` / `2^64`. -/

def M32 : Nat := 4294967296

def M64 : Nat := 18446744073709551616

/-- Rotate a 32-bit word right by `k` bits. -/
def rotr32 (k x : Nat) : Nat := ((x >>> k) ||| (x <<< (32 - k))) % M32

/-- Rotate a 64-bit word right by `k` bits. -/
def rotr64 (k x : Nat) : Nat := ((x >>> k) ||| (x <<< (64 - k))) % M64

def sha256K : List Nat := [
  0x428A2F98, 0x71374491, 0xB5C0FBCF, 0xE9B5DBA5,
  0x3956C25B, 0x59F111F1, 0x923F82A4, 0xAB1C5ED5,
  0xD807AA98, 0x12835B01, 0x243185BE, 0x550C7DC3,
  0x72BE5D74, 0x80DEB1FE, 0x9BDC06A7, 0xC19BF174,
  0xE49B69C1, 0xEFBE4786, 0x0FC19DC6, 0x240CA1CC,
  0x2DE92C6F, 0x4A7484AA, 0x5CB0A9DC, 0x76F988DA,
  0x983E5152, 0xA831C66D, 0xB00327C8, 0xBF597FC7,
  0xC6E00BF3, 0xD5A79147, 0x06CA6351, 0x14292967,
  0x27B70A85, 0x2E1B2138, 0x4D2C6DFC, 0x53380D13,
  0x650A7354, 0x766A0ABB, 0x81C2C92E, 0x92722C85,
  0xA2BFE8A1, 0xA81A664B, 0xC24B8B70, 0xC76C51A3,
  0xD192E819, 0xD6990624, 0xF40E3585, 0x106AA070,
  0x19A4C116, 0x1E376C08, 0x2748774C, 0x34B0BCB5,
  0x391C0CB3, 0x4ED8AA4A, 0x5B9CCA4F, 0x682E6FF3,
  0x748F82EE, 0x78A5636F, 0x84C87814, 0x8CC70208,
  0x90BEFFFA, 0xA4506CEB, 0xBEF9A3F7, 0xC67178F2]

def sha256H0 : List Nat := [
  0x6A09E667, 0xBB67AE85, 0x3C6EF372, 0xA54FF53A,
  0x510E527F, 0x9B05688C, 0x1F83D9AB, 0x5BE0CD19]

/-- Extend the 16 message words of a block to 64 by the SHA-256 schedule. -/
def sha256Extend : Nat → List Nat → List Nat
  | 0, ws => ws
  | t + 1, ws =>
      let i := ws.length
      let x15 := ws.getD (i - 15) 0
      let x2 := ws.getD (i - 2) 0
      let s0 := (rotr32 7 x15) ^^^ (rotr32 18 x15) ^^^ (x15 >>> 3)
      let s1 := (rotr32 17 x2) ^^^ (rotr32 19 x2) ^^^ (x2 >>> 10)
      sha256Extend t
        (ws ++ [(ws.getD (i - 16) 0 + s0 + ws.getD (i - 7) 0 + s1) % M32])

/-- One SHA-256 compression round on the 8-word state. -/
def sha256Round (st : List Nat) (kw : Nat × Nat) : List Nat :=
  match st with
  | [a, b, c, d, e, f, g, h] =>
      let S1 := (rotr32 6 e) ^^^ (rotr32 11 e) ^^^ (rotr32 25 e)
      let ch := (e &&& f) ^^^ ((e ^^^ (M32 - 1)) &&& g)
      let t1 := (h + S1 + ch + kw.1 + kw.2) % M32
      let S0 := (rotr32 2 a) ^^^ (rotr32 13 a) ^^^ (rotr32 22 a)
      let mj := (a &&& b) ^^^ (a &&& c) ^^^ (b &&& c)
      let t2 := (S0 + mj) % M32
      [(t1 + t2) % M32, a, b, c, (d + t1) % M32, e, f, g]
  | other => other

/-- SHA-256 compression of one 16-word block into the running state. -/
def sha256Compress (hs blockWords : List Nat) : List Nat :=
  let ws := sha256Extend 48 blockWords
  let st := (sha256K.zip ws).foldl sha256Round hs
  hs.zipWith (fun x y => (x + y) % M32) st

/-- SHA-256 of a byte string, as 32 bytes. -/
def sha256 (msg : List Nat) : List Nat :=
  let L := msg.length
  let padded := msg ++ 0x80 :: List.replicate ((119 - (L % 64)) % 64) 0
    ++ natToBeBytes 8 (8 * L)
  let blocks := chunkList 64 padded
  let fin := blocks.foldl
    (fun hs blk => sha256Compress hs ((chunkList 4 blk).map natFromBeBytes))
    sha256H0
  (fin.map (natToBeBytes 4)).flatten

def sha512K : List Nat := [
  0x428A2F98D728AE22, 0x7137449123EF65CD, 0xB5C0FBCFEC4D3B2F,
  0xE9B5DBA58189DBBC, 0x3956C25BF348B538, 0x59F111F1B605D019,
  0x923F82A4AF194F9B, 0xAB1C5ED5DA6D8118, 0xD807AA98A3030242,
  0x12835B0145706FBE, 0x243185BE4EE4B28C, 0x550C7DC3D5FFB4E2,
  0x72BE5D74F27B896F, 0x80DEB1FE3B1696B1, 0x9BDC06A725C71235,
  0xC19BF174CF692694, 0xE49B69C19EF14AD2, 0xEFBE4786384F25E3,
  0x0FC19DC68B8CD5B5, 0x240CA1CC77AC9C65, 0x2DE92C6F592B0275,
  0x4A7484AA6EA6E483, 0x5CB0A9DCBD41FBD4, 0x76F988DA831153B5,
  0x983E5152EE66DFAB, 0xA831C66D2DB43210, 0xB00327C898FB213F,
  0xBF597FC7BEEF0EE4, 0xC6E00BF33DA88FC2, 0xD5A79147930AA725,
  0x06CA6351E003826F, 0x142929670A0E6E70, 0x27B70A8546D22FFC,
  0x2E1B21385C26C926, 0x4D2C6DFC5AC42AED, 0x53380D139D95B3DF,
  0x650A73548BAF63DE, 0x766A0ABB3C77B2A8, 0x81C2C92E47EDAEE6,
  0x92722C851482353B, 0xA2BFE8A14CF10364, 0xA81A664BBC423001,
  0xC24B8B70D0F89791, 0xC76C51A30654BE30, 0xD192E819D6EF5218,
  0xD69906245565A910, 0xF40E35855771202A, 0x106AA07032BBD1B8,
  0x19A4C116B8D2D0C8, 0x1E376C085141AB53, 0x2748774CDF8EEB99,
  0x34B0BCB5E19B48A8, 0x391C0CB3C5C95A63, 0x4ED8AA4AE3418ACB,
  0x5B9CCA4F7763E373, 0x682E6FF3D6B2B8A3, 0x748F82EE5DEFB2FC,
  0x78A5636F43172F60, 0x84C87814A1F0AB72, 0x8CC702081A6439EC,
  0x90BEFFFA23631E28, 0xA4506CEBDE82BDE9, 0xBEF9A3F7B2C67915,
  0xC67178F2E372532B, 0xCA273ECEEA26619C, 0xD186B8C721C0C207,
  0xEADA7DD6CDE0EB1E, 0xF57D4F7FEE6ED178, 0x06F067AA72176FBA,
  0x0A637DC5A2C898A6, 0x113F9804BEF90DAE, 0x1B710B35131C471B,
  0x28DB77F523047D84, 0x32CAAB7B40C72493, 0x3C9EBE0A15C9BEBC,
  0x431D67C49C100D4C, 0x4CC5D4BECB3E42B6, 0x597F299CFC657E2A,
  0x5FCB6FAB3AD6FAEC, 0x6C44198C4A475817]

def sha512H0 : List Nat := [
  0x6A09E667F3BCC908, 0xBB67AE8584CAA73B, 0x3C6EF372FE94F82B,
  0xA54FF53A5F1D36F1, 0x510E527FADE682D1, 0x9B05688C2B3E6C1F,
  0x1F83D9ABFB41BD6B, 0x5BE0CD19137E2179]

/-- Extend the 16 message words of a block to 80 by the SHA-512 schedule. -/
def sha512Extend : Nat → List Nat → List Nat
  | 0, ws => ws
  | t + 1, ws =>
      let i := ws.length
      let x15 := ws.getD (i - 15) 0
      let x2 := ws.getD (i - 2) 0
      let s0 := (rotr64 1 x15) ^^^ (rotr64 8 x15) ^^^ (x15 >>> 7)
      let s1 := (rotr64 19 x2) ^^^ (rotr64 61 x2) ^^^ (x2 >>> 6)
      sha512Extend t
        (ws ++ [(ws.getD (i - 16) 0 + s0 + ws.getD (i - 7) 0 + s1) % M64])

/-- One SHA-512 compression round on the 8-word state. -/
def sha512Round (st : List Nat) (kw : Nat × Nat) : List Nat :=
  match st with
  | [a, b, c, d, e, f, g, h] =>
      let S1 := (rotr64 14 e) ^^^ (rotr64 18 e) ^^^ (rotr64 41 e)
      let ch := (e &&& f) ^^^ ((e ^^^ (M64 - 1)) &&& g)
      let t1 := (h + S1 + ch + kw.1 + kw.2) % M64
      let S0 := (rotr64 28 a) ^^^ (rotr64 34 a) ^^^ (rotr64 39 a)
      let mj := (a &&& b) ^^^ (a &&& c) ^^^ (b &&& c)
      let t2 := (S0 + mj) % M64
      [(t1 + t2) % M64, a, b, c, (d + t1) % M64, e, f, g]
  | other => other

/-- SHA-512 compression of one 16-word block into the running state. -/
def sha512Compress (hs blockWords : List Nat) : List Nat :=
  let ws := sha512Extend 64 blockWords
  let st := (sha512K.zip ws).foldl sha512Round hs
  hs.zipWith (fun x y => (x + y) % M64) st

/-- SHA-512 of a byte string, as 64 bytes. -/
def sha512 (msg : List Nat) : List Nat :=
  let L := msg.length
  let padded := msg ++ 0x80 :: List.replicate ((239 - (L % 128)) % 128) 0
    ++ natToBeBytes 16 (8 * L)
  let blocks := chunkList 128 padded
  let fin := blocks.foldl
    (fun hs blk => sha512Compress hs ((chunkList 8 blk).map natFromBeBytes))
    sha512H0
  (fin.map (natToBeBytes 8)).flatten

/-- HMAC-SHA512 (RFC 2104), used by BIP-32 key derivation in
`private_key.rs` (`master_key_from_seed`, `get_child_key`). -/
def hmacSha512 (key msg : List Nat) : List Nat :=
  let k0 := if 128 < key.length then sha512 key else key
  let kp := k0 ++ List.replicate (128 - k0.length) 0
  sha512 ((kp.map (· ^^^ 0x5c)) ++ sha512 ((kp.map (· ^^^ 0x36)) ++ msg))

/-! ## secp256k1 scalars and private-key construction

`private_key.rs` uses the secp256k1 curve order (`CURVE_ORDER`) and the
library's scalar arithmetic.  `SecretKey::add_tweak` computes addition modulo
the curve order; `PublicKey::from_secret_key(..).serialize()` (the compressed
33-byte point encoding) is kept as an opaque-function parameter `pubkeySer`,
since it is external library code. -/

/-- The secp256k1 group order `n` (`secp256k1::constants::CURVE_ORDER`). -/
def curveOrder : Nat :=
  0xfffffffffffffffffffffffffffffffebaaedce6af48a03bbfd25e8cd0364141

/-- `from_secret` (private_key.rs): SHA-256 the secret, interpret big-endian,
reduce mod (curve order − 1), add 1, write as 32 big-endian bytes. -/
def from_secret (secret : List Nat) : List Nat :=
  let secHash := sha256 secret
  let i := natFromBeBytes secHash
  let n := curveOrder - 1
  natToBeBytes 32 (i % n + 1)

/-- The ASCII bytes of `"Bitcoin seed"`. -/
def bitcoinSeedKey : List Nat := [66, 105, 116, 99, 111, 105, 110, 32, 115, 101, 101, 100]

/-- `master_key_from_seed` (private_key.rs): HMAC-SHA512 keyed by
`"Bitcoin seed"` over the seed; the 64-byte output is split into the master
secret key and the master chain code. -/
def master_key_from_seed (seedBytes : List Nat) : List Nat × List Nat :=
  let hash := hmacSha512 bitcoinSeedKey seedBytes
  (hash.take 32, hash.drop 32)

/-- `get_child_key` (private_key.rs): BIP-32 child derivation.  For a
hardened child the HMAC-SHA512 data is `0x00 || parent secret || index'`
with `index' = 2^31 + i`; otherwise it is the compressed parent public key
(`pubkeySer` applied to the parent secret) followed by `i`; the index is
encoded as 4 big-endian bytes (`u32::to_be_bytes`).  The child secret is
`SecretKey::add_tweak` of the left half and the parent secret, i.e. addition
modulo the curve order, re-encoded as 32 big-endian bytes; the child chain
code is the right half. -/
def get_child_key (pubkeySer : List Nat → List Nat)
    (kParent cParent : List Nat) (i : Nat) (hardened : Bool) :
    List Nat × List Nat :=
  let iVal := if hardened then 2 ^ 31 + i else i
  let data := if hardened then 0 :: kParent else pubkeySer kParent
  let lParam := hmacSha512 cParent (data ++ natToBeBytes 4 iVal)
  let childKey :=
    (natFromBeBytes (lParam.take 32) + natFromBeBytes kParent) % curveOrder
  (natToBeBytes 32 childKey, lParam.drop 32)

/-- Decidable equality of `Except` values, used to state and evaluate
results of fallible operations. -/
instance {ε α : Type _} [DecidableEq ε] [DecidableEq α] :
    DecidableEq (Except ε α) := fun x y =>
  match x, y with
  | .ok a, .ok b =>
      if h : a = b then isTrue (by rw [h])
      else isFalse (by intro hc; cases hc; exact h rfl)
  | .error a, .error b =>
      if h : a = b then isTrue (by rw [h])
      else isFalse (by intro hc; cases hc; exact h rfl)
  | .ok _, .error _ => isFalse (by intro hc; cases hc)
  | .error _, .ok _ => isFalse (by intro hc; cases hc)

/-! ## Hex utilities (utils.rs) -/

/-- `char::is_ascii_hexdigit`. -/
def isHexDigitCh (c : Char) : Bool :=
  (48 ≤ c.toNat && c.toNat ≤ 57) ||
  (97 ≤ c.toNat && c.toNat ≤ 102) ||
  (65 ≤ c.toNat && c.toNat ≤ 70)

/-- `contains_non_hex_chars` (utils.rs). -/
def containsNonHexChars (s : String) : Bool :=
  s.toList.any (fun c => ! isHexDigitCh c)

/-- Numeric value of an ASCII hex digit. -/
def hexVal (c : Char) : Option Nat :=
  if 48 ≤ c.toNat && c.toNat ≤ 57 then some (c.toNat - 48)
  else if 97 ≤ c.toNat && c.toNat ≤ 102 then some (c.toNat - 87)
  else if 65 ≤ c.toNat && c.toNat ≤ 70 then some (c.toNat - 55)
  else none

/-- Errors of `hex_str_to_bytes` (`ByteDecodeError` in error.rs); the
`Utf8Error` / `ParseIntError` payloads are dropped. -/
inductive ByteDecodeErr where
  | decodeError
  | parseError
deriving DecidableEq

/-- `u8::from_str_radix(chunk, 16)` on the 1- or 2-character chunks produced
by `hex_str_to_bytes`: an optional leading `+` sign followed by hex digits
(the result of a 1- or 2-digit parse is always below 256). -/
def parseHexChunk : List Char → Except ByteDecodeErr Nat
  | [c] =>
      match hexVal c with
      | some v => .ok v
      | none => .error .parseError
  | [c1, c2] =>
      if c1 = '+' then
        match hexVal c2 with
        | some v => .ok v
        | none => .error .parseError
      else
        match hexVal c1, hexVal c2 with
        | some v1, some v2 => .ok (16 * v1 + v2)
        | _, _ => .error .parseError
  | _ => .error .parseError

/-- `hex_str_to_bytes` (utils.rs): strip an optional `0x`, then parse
2-character chunks (the final chunk may be a single character) as bytes. -/
def hex_str_to_bytes (s : String) : Except ByteDecodeErr (List Nat) :=
  let l := s.toList
  let l := if l.take 2 = ['0', 'x'] then l.drop 2 else l
  (chunkList 2 l).mapM parseHexChunk

/-! ## The bech32 crate (version 0.9)

`address.rs` and `public_key.rs` call `bech32::encode` / `bech32::decode`
with `Variant::Bech32` and the `ToBase32` / `FromBase32` byte converters.
The embedding below follows the crate: `polymod` over the BCH generator,
an HRP restricted to 1–83 ASCII characters in `!`..`~` of a single case,
all-lowercase output, and 5↔8-bit regrouping with zero padding. -/

def bech32Charset : List Char := "qpzry9x8gf2tvdw0s3jn54khce6mua7l".toList

/-- ASCII lowercasing of one character ( `str::to_lowercase` restricted to
the ASCII range that bech32 HRPs and data may contain). -/
def asciiLower (c : Char) : Char :=
  if 65 ≤ c.toNat && c.toNat ≤ 90 then Char.ofNat (c.toNat + 32) else c

/-- `CHARSET_REV` lookup: the 5-bit value of a data character (either case),
`none` for characters outside the charset. -/
def bech32CharVal (c : Char) : Option Nat :=
  bech32Charset.indexOf? (asciiLower c)

/-- Is `c` an ASCII uppercase letter? -/
def isUpperA (c : Char) : Bool := 65 ≤ c.toNat && c.toNat ≤ 90

/-- Is `c` an ASCII lowercase letter? -/
def isLowerA (c : Char) : Bool := 97 ≤ c.toNat && c.toNat ≤ 122

/-- XOR of the bech32 generator constants selected by the low 5 bits of
`b` (the `GEN` table of the crate). -/
def genXor (b : Nat) : Nat :=
  (if b.testBit 0 then 0x3b6a57b2 else 0) ^^^
  (if b.testBit 1 then 0x26508e6d else 0) ^^^
  (if b.testBit 2 then 0x1ea119fa else 0) ^^^
  (if b.testBit 3 then 0x3d4233dd else 0) ^^^
  (if b.testBit 4 then 0x2a1462b3 else 0)

/-- One step of the bech32 `polymod` checksum state machine. -/
def polymodStep (chk v : Nat) : Nat :=
  (((chk &&& 0x1ffffff) <<< 5) ^^^ v) ^^^ genXor (chk >>> 25)

/-- `bech32::polymod` over a list of 5-bit values, starting from 1. -/
def polymod (vs : List Nat) : Nat := vs.foldl polymodStep 1

/-- `hrp_expand`: high bits of each HRP byte, a zero, then the low bits. -/
def hrpExpand (hrp : List Nat) : List Nat :=
  hrp.map (· >>> 5) ++ 0 :: hrp.map (· &&& 31)

/-- `create_checksum` for `Variant::Bech32` (checksum constant 1). -/
def createChecksum (hrp data : List Nat) : List Nat :=
  let values := hrpExpand hrp ++ data
  let plm := polymod (values ++ [0, 0, 0, 0, 0, 0]) ^^^ 1
  (List.range 6).map (fun i => (plm >>> (5 * (5 - i))) &&& 31)

inductive Bech32Error where
  | missingSeparator
  | invalidChecksum
  | invalidLength
  | invalidChar
  | invalidData
  | invalidPadding
  | mixedCase
deriving DecidableEq

inductive Bech32Variant where
  | bech32
  | bech32m
deriving DecidableEq

/-- The big-endian bits of `n`, width `w`. -/
def natBitsBE (w n : Nat) : List Bool :=
  (List.range w).map (fun i => n.testBit (w - 1 - i))

/-- Value of a big-endian bit list. -/
def bitsToNat (l : List Bool) : Nat :=
  l.foldl (fun acc b => 2 * acc + (if b then 1 else 0)) 0

/-- `ToBase32` for byte slices (`convert_bits(data, 8, 5, true)`): regroup
the big-endian bit stream of the bytes into 5-bit groups, zero-padding the
final group. -/
def toBase32 (bytes : List Nat) : List Nat :=
  let bits := (bytes.map (natBitsBE 8)).flatten
  let pad := (5 - bits.length % 5) % 5
  (chunkList 5 (bits ++ List.replicate pad false)).map bitsToNat

/-- `FromBase32` for `Vec<u8>` (`convert_bits(data, 5, 8, false)`): regroup
5-bit groups into bytes; trailing leftover bits must number fewer than 5 and
all be zero, values must be below 32. -/
def fromBase32 (data : List Nat) : Except Bech32Error (List Nat) :=
  if data.any (fun v => 32 ≤ v) then .error .invalidData
  else
    let bits := (data.map (natBitsBE 5)).flatten
    let r := bits.length % 8
    let rest := bits.drop (bits.length - r)
    if 5 ≤ r || rest.any id then .error .invalidPadding
    else .ok ((chunkList 8 (bits.take (bits.length - r))).map bitsToNat)

/-- Split a character list at its last `'1'`: returns the part before (the
HRP) and after (the data characters), like `str::rfind` of the separator in
`bech32::decode`. -/
def splitLast1 : List Char → Option (List Char × List Char)
  | [] => none
  | c :: rest =>
      match splitLast1 rest with
      | some (h, d) => some (c :: h, d)
      | none => if c = '1' then some ([], rest) else none

/-- `check_hrp` of the bech32 crate on an HRP given as characters: nonempty,
at most 83 characters, every character ASCII `!`..`~`, not mixed-case. -/
def checkHrp (hrp : List Char) : Except Bech32Error Unit :=
  if hrp.isEmpty || 83 < hrp.length then .error .invalidLength
  else if ¬ hrp.all (fun c => 33 ≤ c.toNat && c.toNat ≤ 126) then
    .error .invalidChar
  else if (hrp.any isUpperA) && (hrp.any isLowerA) then .error .mixedCase
  else .ok ()

/-- `bech32::encode(hrp, data, Variant::Bech32)`: validate the HRP, lowercase
it, and emit `hrp ++ "1" ++ charset(data ++ checksum)` (the output of the
crate is all-lowercase). -/
def bech32Encode (hrp : List Char) (data : List Nat) :
    Except Bech32Error (List Char) :=
  match checkHrp hrp with
  | .error e => .error e
  | .ok _ =>
      let hl := hrp.map asciiLower
      let hlBytes := hl.map Char.toNat
      .ok (hl ++ '1' ::
        (data ++ createChecksum hlBytes data).map
          (fun v => bech32Charset.getD v ' '))

/-- `bech32::decode`: reject mixed case, lowercase, split at the last `'1'`,
validate the HRP, map the data characters through `CHARSET_REV`, and verify
the checksum (`polymod = 1` Bech32, `= 0x2bc830a3` Bech32m). -/
def bech32Decode (s : List Char) :
    Except Bech32Error (List Char × List Nat × Bech32Variant) :=
  if (s.any isUpperA) && (s.any isLowerA) then .error .mixedCase
  else
    let sl := s.map asciiLower
    match splitLast1 sl with
    | none => .error .missingSeparator
    | some (hrp, dataCh) =>
        match checkHrp hrp with
        | .error e => .error e
        | .ok _ =>
            if dataCh.length < 6 then .error .invalidLength
            else
              match dataCh.mapM bech32CharVal with
              | none => .error .invalidChar
              | some vals =>
                  let pm := polymod (hrpExpand (hrp.map Char.toNat) ++ vals)
                  if pm = 1 then
                    .ok (hrp, vals.take (vals.length - 6), .bech32)
                  else if pm = 0x2bc830a3 then
                    .ok (hrp, vals.take (vals.length - 6), .bech32m)
                  else .error .invalidChecksum

/-! ## Address (address.rs) -/

inductive ArrayStringErr where
  | tooLong
deriving DecidableEq

/-- `ArrayString` (utils.rs): a string whose UTF-8 byte length is checked to
be at most 32 at construction (`MAX_LEN`); the character buffer round-trips
through `Display`, so the model keeps the `String`. -/
structure ArrayString where
  str : String
deriving DecidableEq

/-- `ArrayString::new`. -/
def ArrayString.new (input : String) : Except ArrayStringErr ArrayString :=
  if 32 < input.utf8ByteSize then .error .tooLong else .ok ⟨input⟩

/-- `AddressError` (error.rs); error payloads other than `ByteDecodeError`
are dropped. -/
inductive AddressErr where
  | bech32WrongLength
  | bech32InvalidBase32
  | bech32InvalidEncoding
  | hexDecodeError (e : ByteDecodeErr)
  | hexDecodeErrorWrongLength
  | prefixTooLong
  | bytesDecodeErrorWrongLength
deriving DecidableEq

/-- `From<bech32::Error> for AddressError` (error.rs). -/
def addressErrOfBech32 : Bech32Error → AddressErr
  | .invalidLength => .bech32WrongLength
  | .invalidChar => .bech32InvalidBase32
  | .invalidData => .bech32InvalidEncoding
  | .invalidChecksum => .bech32InvalidEncoding
  | .invalidPadding => .bech32InvalidEncoding
  | .mixedCase => .bech32InvalidEncoding
  | .missingSeparator => .bech32InvalidEncoding

/-- `Address` (address.rs): `Base` holds a 20-byte buffer, `Derived` a
32-byte buffer, each with its prefix.  The fixed buffer sizes of the Rust
arrays are invariants of the smart constructors below (claim C6). -/
inductive Address where
  | base (bytes : List Nat) (pfx : ArrayString)
  | derived (bytes : List Nat) (pfx : ArrayString)
deriving DecidableEq

/-- `Address::get_bytes`. -/
def Address.getBytes : Address → List Nat
  | .base b _ => b
  | .derived b _ => b

/-- `Address::get_prefix`. -/
def Address.getPfx : Address → String
  | .base _ p => p.str
  | .derived _ p => p.str

/-- `DEFAULT_PREFIX` (address.rs). -/
def DEFAULT_PREFIX : String := "cosmos"

/-- `Address::from_slice`: 20 bytes makes a `Base` address, 32 a `Derived`
one, anything else fails `BytesDecodeErrorWrongLength`;
`BaseAddress::from_bytes` / `DerivedAddress::from_bytes` validate the
prefix. -/
def Address.from_slice (bytes : List Nat) (pfxStr : String) :
    Except AddressErr Address :=
  if bytes.length = 20 then
    match ArrayString.new pfxStr with
    | .ok a => .ok (.base bytes a)
    | .error _ => .error .prefixTooLong
  else if bytes.length = 32 then
    match ArrayString.new pfxStr with
    | .ok a => .ok (.derived bytes a)
    | .error _ => .error .prefixTooLong
  else .error .bytesDecodeErrorWrongLength

/-- `Address::from_bech32`. -/
def Address.from_bech32 (s : String) : Except AddressErr Address :=
  match bech32Decode s.toList with
  | .error _ => .error .bech32InvalidEncoding
  | .ok (hrp, data, _) =>
      match fromBase32 data with
      | .error _ => .error .bech32InvalidBase32
      | .ok vec =>
          if vec.length = 20 then
            match ArrayString.new (String.mk hrp) with
            | .ok a => .ok (.base vec a)
            | .error _ => .error .prefixTooLong
          else if vec.length = 32 then
            match ArrayString.new (String.mk hrp) with
            | .ok a => .ok (.derived vec a)
            | .error _ => .error .prefixTooLong
          else .error .bech32WrongLength

/-- `Address::to_bech32`. -/
def Address.to_bech32 (a : Address) (hrp : String) :
    Except AddressErr String :=
  match bech32Encode hrp.toList (toBase32 a.getBytes) with
  | .ok out => .ok (String.mk out)
  | .error e => .error (addressErrOfBech32 e)

/-- `Address::change_prefix` (returning the updated address rather than
mutating in place). -/
def Address.change_prefix (a : Address) (p : String) :
    Except AddressErr Address :=
  match ArrayString.new p with
  | .error _ => .error .prefixTooLong
  | .ok arr =>
      match a with
      | .base b _ => .ok (.base b arr)
      | .derived b _ => .ok (.derived b arr)

/-! ## RIPEMD-160

Executable embedding of RIPEMD-160 (the `ripemd` crate used by
`public_key.rs` for Cosmos address derivation).  The five 32-bit registers
are a structure, message words and the length padding are little-endian. -/

/-- Little-endian fixed-width byte encoding. -/
def natToLeBytes (w n : Nat) : List Nat := (natToBeBytes w n).reverse

/-- Value of a little-endian byte list. -/
def natFromLeBytes (l : List Nat) : Nat := natFromBeBytes l.reverse

/-- Rotate a 32-bit word left by `k` bits. -/
def rotl32 (k x : Nat) : Nat := ((x <<< k) ||| (x >>> (32 - k))) % M32

/-- The five RIPEMD-160 registers. -/
structure R5 where
  a : Nat
  b : Nat
  c : Nat
  d : Nat
  e : Nat
deriving DecidableEq

def ripemdH0 : R5 := ⟨0x67452301, 0xefcdab89, 0x98badcfe, 0x10325476, 0xc3d2e1f0⟩

def ripemdF (j x y z : Nat) : Nat :=
  if j < 16 then x ^^^ y ^^^ z
  else if j < 32 then (x &&& y) ||| ((x ^^^ (M32 - 1)) &&& z)
  else if j < 48 then (x ||| (y ^^^ (M32 - 1))) ^^^ z
  else if j < 64 then (x &&& z) ||| (y &&& (z ^^^ (M32 - 1)))
  else x ^^^ (y ||| (z ^^^ (M32 - 1)))

def ripemdR1 : List Nat := [
  0, 1, 2, 3, 4, 5, 6, 7, 8, 9, 10, 11, 12, 13, 14, 15,
  7, 4, 13, 1, 10, 6, 15, 3, 12, 0, 9, 5, 2, 14, 11, 8,
  3, 10, 14, 4, 9, 15, 8, 1, 2, 7, 0, 6, 13, 11, 5, 12,
  1, 9, 11, 10, 0, 8, 12, 4, 13, 3, 7, 15, 14, 5, 6, 2,
  4, 0, 5, 9, 7, 12, 2, 10, 14, 1, 3, 8, 11, 6, 15, 13]

def ripemdR2 : List Nat := [
  5, 14, 7, 0, 9, 2, 11, 4, 13, 6, 15, 8, 1, 10, 3, 12,
  6, 11, 3, 7, 0, 13, 5, 10, 14, 15, 8, 12, 4, 9, 1, 2,
  15, 5, 1, 3, 7, 14, 6, 9, 11, 8, 12, 2, 10, 0, 4, 13,
  8, 6, 4, 1, 3, 11, 15, 0, 5, 12, 2, 13, 9, 7, 10, 14,
  12, 15, 10, 4, 1, 5, 8, 7, 6, 2, 13, 14, 0, 3, 9, 11]

def ripemdS1 : List Nat := [
  11, 14, 15, 12, 5, 8, 7, 9, 11, 13, 14, 15, 6, 7, 9, 8,
  7, 6, 8, 13, 11, 9, 7, 15, 7, 12, 15, 9, 11, 7, 13, 12,
  11, 13, 6, 7, 14, 9, 13, 15, 14, 8, 13, 6, 5, 12, 7, 5,
  11, 12, 14, 15, 14, 15, 9, 8, 9, 14, 5, 6, 8, 6, 5, 12,
  9, 15, 5, 11, 6, 8, 13, 12, 5, 12, 13, 14, 11, 8, 5, 6]

def ripemdS2 : List Nat := [
  8, 9, 9, 11, 13, 15, 15, 5, 7, 7, 8, 11, 14, 14, 12, 6,
  9, 13, 15, 7, 12, 8, 9, 11, 7, 7, 12, 7, 6, 15, 13, 11,
  9, 7, 15, 11, 8, 6, 6, 14, 12, 13, 5, 14, 13, 13, 7, 5,
  15, 5, 8, 11, 14, 14, 6, 14, 6, 9, 12, 9, 12, 5, 15, 8,
  8, 5, 12, 9, 12, 5, 14, 6, 8, 13, 6, 5, 15, 13, 11, 11]

def ripemdK1 : List Nat :=
  [0x00000000, 0x5a827999, 0x6ed9eba1, 0x8f1bbcdc, 0xa953fd4e]

def ripemdK2 : List Nat :=
  [0x50a28be6, 0x5c4dd124, 0x6d703ef3, 0x7a6d76e9, 0x00000000]

/-- One parallel RIPEMD-160 step (`j` from 0 to 79) on the two lines. -/
def ripemdRound (X : List Nat) (st : R5 × R5) (j : Nat) : R5 × R5 :=
  let l := st.1
  let r := st.2
  let t1 := (rotl32 (ripemdS1.getD j 0)
    ((l.a + ripemdF j l.b l.c l.d + X.getD (ripemdR1.getD j 0) 0 +
      ripemdK1.getD (j / 16) 0) % M32) + l.e) % M32
  let t2 := (rotl32 (ripemdS2.getD j 0)
    ((r.a + ripemdF (79 - j) r.b r.c r.d + X.getD (ripemdR2.getD j 0) 0 +
      ripemdK2.getD (j / 16) 0) % M32) + r.e) % M32
  (⟨l.e, t1, l.b, rotl32 10 l.c, l.d⟩, ⟨r.e, t2, r.b, rotl32 10 r.c, r.d⟩)

/-- RIPEMD-160 compression of one 16-word block. -/
def ripemdCompress (h : R5) (X : List Nat) : R5 :=
  let res := (List.range 80).foldl (ripemdRound X) (h, h)
  let l := res.1
  let r := res.2
  ⟨(h.b + l.c + r.d) % M32, (h.c + l.d + r.e) % M32,
   (h.d + l.e + r.a) % M32, (h.e + l.a + r.b) % M32,
   (h.a + l.b + r.c) % M32⟩

/-- RIPEMD-160 of a byte string, as 20 bytes. -/
def ripemd160 (msg : List Nat) : List Nat :=
  let L := msg.length
  let padded := msg ++ 0x80 :: List.replicate ((119 - (L % 64)) % 64) 0
    ++ natToLeBytes 8 (8 * L)
  let blocks := chunkList 64 padded
  let fin := blocks.foldl
    (fun h blk => ripemdCompress h ((chunkList 4 blk).map natFromLeBytes))
    ripemdH0
  natToLeBytes 4 fin.a ++ natToLeBytes 4 fin.b ++ natToLeBytes 4 fin.c ++
    natToLeBytes 4 fin.d ++ natToLeBytes 4 fin.e

/-- The representation invariant maintained by the Rust fixed-size buffers
`[u8; 20]` / `[u8; 32]`: a `Base` address holds exactly 20 bytes and a
`Derived` address exactly 32, each a byte value. -/
def Address.wf : Address → Prop
  | .base b _ => b.length = 20 ∧ ∀ x ∈ b, x < 256
  | .derived b _ => b.length = 32 ∧ ∀ x ∈ b, x < 256

/-- `Address::from_str`: bech32 when any non-hex character is present, hex
bytes with the default prefix otherwise. -/
def Address.from_str (s : String) : Except AddressErr Address :=
  if containsNonHexChars s then Address.from_bech32 s
  else
    match hex_str_to_bytes s with
    | .ok bytes => Address.from_slice bytes DEFAULT_PREFIX
    | .error e => .error (.hexDecodeError e)

/-! ## CosmosPublicKey (public_key.rs) -/

/-- `str::ends_with` for a character-list suffix. -/
def listEndsWith (l suf : List Char) : Bool :=
  decide (suf.length ≤ l.length) &&
    decide (l.drop (l.length - suf.length) = suf)

/-- The characters of the suffix pattern `"pub"`. -/
def pubChars : List Char := ['p', 'u', 'b']

/-- Fuel-driven worker for `trimEndPub`. -/
def trimEndAux : Nat → List Char → List Char
  | 0, l => l
  | fuel + 1, l =>
      if listEndsWith l pubChars then
        trimEndAux fuel (l.take (l.length - 3))
      else l

/-- `str::trim_end_matches("pub")`: repeatedly remove the trailing
`"pub"` suffix. -/
def trimEndPub (l : List Char) : List Char := trimEndAux l.length l

/-- `CosmosPublicKey` (public_key.rs): a 33-byte compressed secp256k1 point
with its bech32 prefix. -/
structure CosmosPublicKey where
  bytes : List Nat
  pfx : ArrayString
deriving DecidableEq

/-- `CosmosPublicKey::DEFAULT_PREFIX`. -/
def cosmosPubDefaultPfx : String := "cosmospub"

/-- `CosmosPublicKey::to_address_with_prefix`: the address payload is
`RIPEMD160(SHA-256(compressed key bytes))`, wrapped in an `Address` with the
given prefix (`Address::from_bytes` on the 20-byte array). -/
def CosmosPublicKey.to_address_with_prefix (k : CosmosPublicKey)
    (p : String) : Except AddressErr Address :=
  Address.from_slice (ripemd160 (sha256 k.bytes)) p

/-- `CosmosPublicKey::to_address`: strip the trailing `"pub"` convention
from the stored prefix (`trim_end_matches`, which removes the suffix
repeatedly) and derive the address; the `unwrap` in the source cannot fail
because the stripped prefix is no longer than the validated stored one (the
error arm below is unreachable for well-formed keys). -/
def CosmosPublicKey.to_address (k : CosmosPublicKey) : Address :=
  let current := k.pfx.str
  let newPfx :=
    if listEndsWith current.toList pubChars then
      String.mk (trimEndPub current.toList)
    else current
  match CosmosPublicKey.to_address_with_prefix k newPfx with
  | .ok a => a
  | .error _ => .base (ripemd160 (sha256 k.bytes)) ⟨""⟩

/-- Modelled from the claim (C4), for comparison with the code: the stored
prefix with a single trailing `"pub"` suffix stripped when present. -/
def claimedStripPub (current : List Char) : List Char :=
  if listEndsWith current pubChars then current.take (current.length - 3)
  else current

/-! ## Fee-error analysis (utils.rs, coin.rs, error.rs) -/

/-- Rust `char::is_whitespace`: the Unicode `White_Space` code points. -/
def isRustWhitespace (c : Char) : Bool :=
  let n := c.toNat
  (9 ≤ n && n ≤ 13) || n = 32 || n = 133 || n = 160 || n = 5760 ||
    (8192 ≤ n && n ≤ 8202) || n = 8232 || n = 8233 || n = 8239 ||
    n = 8287 || n = 12288

/-- Rust `str::trim`: drop `White_Space` characters from both ends. -/
def trimChars (l : List Char) : List Char :=
  ((l.dropWhile isRustWhitespace).reverse.dropWhile isRustWhitespace).reverse

/-- Rust `char::is_alphabetic` on the ASCII fragment exercised here
(`is_alphabetic` is the Unicode `Alphabetic` property, which agrees with
`Char.isAlpha` on ASCII). -/
def rustIsAlphabetic (c : Char) : Bool := c.isAlpha

/-- Worker for `splitOnChar`: accumulates the current piece reversed. -/
def splitOnCharAux (c : Char) : List Char → List Char → List (List Char)
  | [], acc => [acc.reverse]
  | x :: xs, acc =>
      if x = c then acc.reverse :: splitOnCharAux c xs []
      else splitOnCharAux c xs (x :: acc)

/-- Rust `str::split(c)`: split at every occurrence of `c`, keeping empty
pieces. -/
def splitOnChar (c : Char) (s : List Char) : List (List Char) :=
  splitOnCharAux c s []

/-- Decimal-digit accumulator: `none` as soon as a non-digit appears. -/
def decDigitsAux : List Char → Nat → Option Nat
  | [], acc => some acc
  | c :: cs, acc =>
      if c.isDigit then decDigitsAux cs (10 * acc + (c.toNat - 48))
      else none

/-- `num256::Uint256`'s `FromStr` on the decimal fragment exercised here
(the crate is outside this repository): an optional leading `+`, then a
nonempty run of decimal digits whose value fits in 256 bits. -/
def uint256FromStr (l : List Char) : Option Nat :=
  let l := match l with
    | '+' :: rest => rest
    | _ => l
  match l with
  | [] => none
  | _ =>
    match decDigitsAux l 0 with
    | some v => if v < 2 ^ 256 then some v else none
    | none => none

/-- `Coin` (coin.rs): an amount of one currency. `amount` is a `Uint256`,
modelled as a `Nat` below `2^256`. -/
structure Coin where
  amount : Nat
  denom : String
deriving DecidableEq

/-- `Coin::from_str` (coin.rs): trim the input, find the byte index of the
first alphabetic character (0 when there is none — `split_idx` keeps its
initializer), split there into amount and denom, and parse the amount as a
`Uint256`. Splitting a character list at the first alphabetic character
coincides with splitting the UTF-8 string at that character's byte index. -/
def coinFromStr (value : List Char) : Option Coin :=
  let value := trimChars value
  let split_idx := match value.findIdx? rustIsAlphabetic with
    | some i => i
    | none => 0
  match uint256FromStr (value.take split_idx) with
  | some v => some ⟨v, String.mk (value.drop split_idx)⟩
  | none => none

/-- `SdkErrorCode` (error.rs): known Cosmos SDK error codes. -/
inductive SdkErrorCode where
  | ErrInternal | ErrTxDecode | ErrInvalidSequence | ErrUnauthorized
  | ErrInsufficientFunds | ErrUnknownRequest | ErrInvalidAddress
  | ErrInvalidPubKey | ErrUnknownAddress | ErrInvalidCoins | ErrOutOfGas
  | ErrMemoTooLarge | ErrInsufficientFee | ErrTooManySignatures
  | ErrNoSignatures | ErrJsonMarshal | ErrJsonUnmarshal | ErrInvalidRequest
  | ErrTxInMempoolCache | ErrMempoolIsFull | ErrTxTooLarge | ErrKeyNotFound
  | ErrWrongPassword | ErrInvalidSigner | ErrInvalidGasAdjustment
  | ErrInvalidHeight | ErrInvalidVersion | ErrInvalidChainId | ErrInvalidType
  | ErrTxTimeoutHeight | ErrUnknownExtensionOptions | ErrWrongSequence
  | ErrPackAny | ErrUnpackAny | ErrLogic | ErrConflict | ErrNotSupported
  | ErrNotFound | ErrIo | ErrPanic | ErrAppConfig
deriving DecidableEq

/-- `SdkErrorCode::from_code` (error.rs). -/
def SdkErrorCode.from_code (code : Nat) : Option SdkErrorCode :=
  match code with
  | 1 => some .ErrInternal
  | 2 => some .ErrTxDecode
  | 3 => some .ErrInvalidSequence
  | 4 => some .ErrUnauthorized
  | 5 => some .ErrInsufficientFunds
  | 6 => some .ErrUnknownRequest
  | 7 => some .ErrInvalidAddress
  | 8 => some .ErrInvalidPubKey
  | 9 => some .ErrUnknownAddress
  | 10 => some .ErrInvalidCoins
  | 11 => some .ErrOutOfGas
  | 12 => some .ErrMemoTooLarge
  | 13 => some .ErrInsufficientFee
  | 14 => some .ErrTooManySignatures
  | 15 => some .ErrNoSignatures
  | 16 => some .ErrJsonMarshal
  | 17 => some .ErrJsonUnmarshal
  | 18 => some .ErrInvalidRequest
  | 19 => some .ErrTxInMempoolCache
  | 20 => some .ErrMempoolIsFull
  | 21 => some .ErrTxTooLarge
  | 22 => some .ErrKeyNotFound
  | 23 => some .ErrWrongPassword
  | 24 => some .ErrInvalidSigner
  | 25 => some .ErrInvalidGasAdjustment
  | 26 => some .ErrInvalidHeight
  | 27 => some .ErrInvalidVersion
  | 28 => some .ErrInvalidChainId
  | 29 => some .ErrInvalidType
  | 30 => some .ErrTxTimeoutHeight
  | 31 => some .ErrUnknownExtensionOptions
  | 32 => some .ErrWrongSequence
  | 33 => some .ErrPackAny
  | 34 => some .ErrUnpackAny
  | 35 => some .ErrLogic
  | 36 => some .ErrConflict
  | 37 => some .ErrNotSupported
  | 38 => some .ErrNotFound
  | 39 => some .ErrIo
  | 111222 => some .ErrPanic
  | 40 => some .ErrAppConfig
  | _ => none

/-- The fields of `cosmos_sdk_proto`'s `TxResponse` read by
`determine_min_fees_and_gas`: `code` is a `u32`, the gas fields are `i64`. -/
structure TxResponse where
  codespace : String
  code : Nat
  raw_log : String
  gas_wanted : Int
  gas_used : Int
deriving DecidableEq

/-- `FeeInfo` (utils.rs). -/
inductive FeeInfo where
  | InsufficientFees (min_fees : List Coin)
  | InsufficientGas (amount : Nat)
deriving DecidableEq

/-- `determine_min_fees_and_gas` (utils.rs): an obvious gas problem first
(`gas_used as u64` reinterprets the `i64` modulo `2^64`); otherwise, for an
`"sdk"`-codespace response whose code decodes to `ErrInsufficientFee`, parse
the third colon-separated field of the raw log, collecting every
comma-separated piece that parses as a `Coin`. -/
def determine_min_fees_and_gas (input : TxResponse) : Option FeeInfo :=
  if input.gas_wanted < input.gas_used then
    some (FeeInfo.InsufficientGas ((input.gas_used % (2 ^ 64 : Int)).toNat))
  else if input.codespace = "sdk" then
    match SdkErrorCode.from_code input.code with
    | some err =>
      if err = SdkErrorCode.ErrInsufficientFee then
        match (splitOnChar ':' input.raw_log.toList)[2]? with
        | some amounts =>
            some (FeeInfo.InsufficientFees
              ((splitOnChar ',' amounts).filterMap coinFromStr))
        | none => none
      else none
    | none => none
  else none

/-! ## HD wallet paths and key import (private_key.rs, error.rs)

The `Mnemonic` implementation (`mnemonic` module) is not part of this
source tree — only its word lists are — so the word-count check described
by the spec is modelled explicitly below and the remaining validation and
the PBKDF2 seed derivation are kept as function parameters. -/

/-- The apostrophe character (ASCII 39), the hardened-segment marker. -/
def aposCh : Char := Char.ofNat 39

/-- The backslash character (ASCII 92). -/
def backslashCh : Char := Char.ofNat 92

/-- Rust `str::trim_matches(c)`: remove every leading and every trailing
occurrence of `c`. -/
def trimMatchesCh (c : Char) (l : List Char) : List Char :=
  ((l.dropWhile (· = c)).reverse.dropWhile (· = c)).reverse

/-- `u32::from_str`: an optional leading `+`, then a nonempty run of
decimal digits whose value fits in 32 bits. -/
def parseU32 (l : List Char) : Option Nat :=
  let l := match l with
    | '+' :: rest => rest
    | _ => l
  match l with
  | [] => none
  | _ =>
    match decDigitsAux l 0 with
    | some v => if v < 2 ^ 32 then some v else none
    | none => none

/-- `Bip39Error` (error.rs); non-numeric payloads are dropped. -/
inductive Bip39Error where
  | badWordCount (n : Nat)
  | unknownWord
  | badEntropyBitCount (n : Nat)
  | invalidChecksum
  | ambiguousWordList
deriving DecidableEq

/-- `HdWalletError` (error.rs). -/
inductive HdWalletError where
  | bip39Error (e : Bip39Error)
  | invalidPathSpec (path : String)
deriving DecidableEq

/-- `PrivateKeyError` (error.rs); payloads of variants not reached by the
functions modelled here are dropped.  `Mnemonic::from_str` errors are
`Bip39Error`s, which `From<Bip39Error>` wraps as `InvalidMnemonic`. -/
inductive PrivateKeyErr where
  | hexDecodeError (e : ByteDecodeErr)
  | hexDecodeErrorWrongLength
  | curveError
  | encodeError
  | publicKeyError
  | addressError (e : AddressErr)
  | hdWalletError (e : HdWalletError)
  | invalidMnemonic (e : Bip39Error)
deriving DecidableEq

/-- Whether a path segment survives the loop body of `from_hd_wallet_path`:
after stripping apostrophes when one is present, it parses as a `u32`. -/
def segParses (seg : List Char) : Bool :=
  (parseU32 (if seg.contains aposCh then trimMatchesCh aposCh seg
             else seg)).isSome

/-- The `for` loop of `from_hd_wallet_path` (private_key.rs) over the path
segments after the discarded first one: a segment containing an apostrophe
derives a hardened child after `trim_matches` strips the apostrophes from
both ends; a segment that does not parse as a `u32` aborts with
`InvalidPathSpec` carrying the whole path. -/
def hdPathLoop (pubkeySer : List Nat → List Nat) (hd_path : String) :
    List (List Char) → List Nat → List Nat → Except PrivateKeyErr (List Nat)
  | [], sk, _ => .ok sk
  | seg :: rest, sk, cc =>
      match parseU32 (if seg.contains aposCh then trimMatchesCh aposCh seg
                      else seg) with
      | some i =>
          hdPathLoop pubkeySer hd_path rest
            (get_child_key pubkeySer sk cc i (seg.contains aposCh)).1
            (get_child_key pubkeySer sk cc i (seg.contains aposCh)).2
      | none => .error (.hdWalletError (.invalidPathSpec hd_path))

/-- `from_hd_wallet_path` (private_key.rs): reject a path that does not
start with `m` or that contains a backslash; split on `/` and discard the
first piece; then derive the seed from the mnemonic — passed in here as the
already-evaluated `Except` value `seedE`, standing for
`Mnemonic::from_str(phrase)?.to_seed(passphrase)` — take the master key and
fold `get_child_key` over the remaining segments. -/
def from_hd_wallet_path (pubkeySer : List Nat → List Nat)
    (seedE : Except PrivateKeyErr (List Nat)) (hd_path : String) :
    Except PrivateKeyErr (List Nat) :=
  if !(match hd_path.toList.head? with
        | some c => c == 'm'
        | none => false)
      || hd_path.toList.contains backslashCh then
    .error (.hdWalletError (.invalidPathSpec hd_path))
  else
    match seedE with
    | .error e => .error e
    | .ok seed =>
        hdPathLoop pubkeySer hd_path
          ((splitOnChar '/' hd_path.toList).drop 1)
          (master_key_from_seed seed).1 (master_key_from_seed seed).2

/-- The condition under which `from_hd_wallet_path` succeeds for a valid
mnemonic: starts with `m`, no backslash, and every segment after the first
parses. -/
def acceptedPath (path : List Char) : Bool :=
  (match path.head? with
    | some c => c == 'm'
    | none => false) &&
    !path.contains backslashCh &&
    ((splitOnChar '/' path).drop 1).all segParses

/-- Modelled from the claim (C7), for comparison with the code: the grammar
`m/<segment>(/<segment>)*`, each segment an unsigned integer optionally
followed by a single trailing apostrophe. -/
def claimedSegOK (seg : List Char) : Bool :=
  (!seg.isEmpty && seg.all Char.isDigit) ||
    (seg.getLast? == some aposCh &&
      (!seg.dropLast.isEmpty && seg.dropLast.all Char.isDigit))

/-- Modelled from the claim (C7): a path conforming to the claimed grammar. -/
def claimedPathGrammar (path : List Char) : Bool :=
  match path with
  | 'm' :: '/' :: rest => (splitOnChar '/' rest).all claimedSegOK
  | _ => false

/-- Worker for whitespace splitting: accumulates the current word
reversed. -/
def splitWsAux : List Char → List Char → List (List Char)
  | [], [] => []
  | [], acc => [acc.reverse]
  | c :: cs, acc =>
      if isRustWhitespace c then
        match acc with
        | [] => splitWsAux cs []
        | _ => acc.reverse :: splitWsAux cs []
      else splitWsAux cs (c :: acc)

/-- Rust `str::split_whitespace`: the maximal runs of non-whitespace
characters. -/
def splitWhitespace (l : List Char) : List (List Char) := splitWsAux l []

/-- Spec-modelled (the `mnemonic` module is absent from `src/`):
`Mnemonic::from_str(phrase)?.to_seed(passphrase)`.  Per the spec, the
whitespace-separated word count must be one of 12, 15, 18, 21 or 24, any
other count failing with `Bip39Error::BadWordCount(count)`; the word-list
and checksum validation and the PBKDF2-HMAC-SHA512 seed derivation are kept
as the parameter `rest`, whose `Bip39Error`s are wrapped as
`InvalidMnemonic` exactly as the `?` conversion does. -/
def mnemonicSeedModel (rest : String → String → Except Bip39Error (List Nat))
    (phrase passphrase : String) : Except PrivateKeyErr (List Nat) :=
  let n := (splitWhitespace phrase.toList).length
  if n = 12 ∨ n = 15 ∨ n = 18 ∨ n = 21 ∨ n = 24 then
    match rest phrase passphrase with
    | .ok seed => .ok seed
    | .error e => .error (.invalidMnemonic e)
  else .error (.invalidMnemonic (.badWordCount n))

/-- `DEFAULT_COSMOS_HD_PATH` (private_key.rs). -/
def DEFAULT_COSMOS_HD_PATH : String := "m/44'/118'/0'/0/0"

/-- `CosmosPrivateKey::from_phrase` (private_key.rs): an empty phrase fails
with `HdWalletError::Bip39Error(BadWordCount(0))`; otherwise derive along
`DEFAULT_COSMOS_HD_PATH`.  `mseed` abstracts the mnemonic-to-seed step
(e.g. `mnemonicSeedModel rest`). -/
def from_phrase (pubkeySer : List Nat → List Nat)
    (mseed : String → String → Except PrivateKeyErr (List Nat))
    (phrase passphrase : String) : Except PrivateKeyErr (List Nat) :=
  if phrase.isEmpty then
    .error (.hdWalletError (.bip39Error (.badWordCount 0)))
  else
    from_hd_wallet_path pubkeySer (mseed phrase passphrase)
      DEFAULT_COSMOS_HD_PATH

/-- `CosmosPrivateKey`'s `FromStr` (private_key.rs): when the input parses
as hex, accept exactly 32 bytes and fail with `HexDecodeErrorWrongLength`
otherwise; when the hex parse fails, fall back to
`from_phrase(s, "")` only if the string contains a non-hex character,
and surface the hex error otherwise. -/
def CosmosPrivateKey.from_str (pubkeySer : List Nat → List Nat)
    (mseed : String → String → Except PrivateKeyErr (List Nat))
    (s : String) : Except PrivateKeyErr (List Nat) :=
  match hex_str_to_bytes s with
  | .ok bytes =>
      if bytes.length = 32 then .ok bytes
      else .error .hexDecodeErrorWrongLength
  | .error e =>
      if containsNonHexChars s then from_phrase pubkeySer mseed s ""
      else .error (.hexDecodeError e)

/-! ## Protobuf encoding and transaction building (private_key.rs, msg.rs,
coin.rs)

`prost`'s proto3 wire format for the `cosmos_sdk_proto` message types used
by `build_unfinished_tx` / `build_tx` / `sign_std_msg`: base-128 varints,
tag = field number `<<` 3 `|` wire type, scalar fields skipped at their
default value, embedded messages and `oneof` arms emitted whenever present,
fields emitted in field-number order.  The secp256k1 library operations are
function parameters: `pubkeySer` for the 33-byte compressed
`PublicKey::from_secret_key(..).serialize()` of a secret key, `ecdsaSign`
for the `(r, s)` pair of the RFC 6979 deterministic
`sign_ecdsa(digest, key)`, whose `serialize_compact` is the 32-byte
big-endian `r` followed by the 32-byte big-endian `s`. -/

/-- Fuel-driven base-128 varint worker (least-significant group first). -/
def varintAux : Nat → Nat → List Nat
  | 0, n => [n % 128]
  | fuel + 1, n =>
      if n < 128 then [n] else (n % 128 + 128) :: varintAux fuel (n / 128)

/-- Base-128 varint encoding (`prost::encoding::encode_varint`); ten groups
cover every 64-bit value. -/
def varint (n : Nat) : List Nat := varintAux 10 n

/-- The UTF-8 bytes of one character. -/
def utf8EncodeChar (c : Char) : List Nat :=
  let n := c.toNat
  if n < 128 then [n]
  else if n < 2048 then [192 + n / 64, 128 + n % 64]
  else if n < 65536 then
    [224 + n / 4096, 128 + (n / 64) % 64, 128 + n % 64]
  else
    [240 + n / 262144, 128 + (n / 4096) % 64, 128 + (n / 64) % 64,
      128 + n % 64]

/-- The UTF-8 bytes of a string. -/
def strBytes (s : String) : List Nat := (s.toList.map utf8EncodeChar).flatten

/-- A field tag: field number shifted left by three, `|` wire type. -/
def tagBytes (field wire : Nat) : List Nat := varint (field * 8 + wire)

/-- A length-delimited field (wire type 2): tag, payload length, payload. -/
def lenDelim (field : Nat) (payload : List Nat) : List Nat :=
  tagBytes field 2 ++ varint payload.length ++ payload

/-- A `uint64`/enum varint field, skipped at its default `0`. -/
def pbUint (field n : Nat) : List Nat :=
  if n = 0 then [] else tagBytes field 0 ++ varint n

/-- A `string` field, skipped when empty. -/
def pbString (field : Nat) (s : String) : List Nat :=
  if s = "" then [] else lenDelim field (strBytes s)

/-- A `bytes` field, skipped when empty. -/
def pbBytes (field : Nat) (b : List Nat) : List Nat :=
  if b = [] then [] else lenDelim field b

/-- A repeated length-delimited field: one tag-length-payload per element,
in order. -/
def pbRepeated (field : Nat) (payloads : List (List Nat)) : List Nat :=
  (payloads.map (lenDelim field)).flatten

/-- `prost_types::Any`. -/
structure ProtoAny where
  type_url : String
  value : List Nat
deriving DecidableEq

/-- `Any`: `string type_url = 1; bytes value = 2`. -/
def encodeAny (a : ProtoAny) : List Nat :=
  pbString 1 a.type_url ++ pbBytes 2 a.value

/-- `cosmos.base.v1beta1.Coin`: `string denom = 1; string amount = 2`. -/
structure ProtoCoin where
  denom : String
  amount : String
deriving DecidableEq

def encodeProtoCoin (c : ProtoCoin) : List Nat :=
  pbString 1 c.denom ++ pbString 2 c.amount

/-- `cosmos.tx.v1beta1.Fee`: `repeated Coin amount = 1;
uint64 gas_limit = 2; string payer = 3; string granter = 4`. -/
structure ProtoFee where
  amount : List ProtoCoin
  gas_limit : Nat
  payer : String
  granter : String
deriving DecidableEq

def encodeProtoFee (f : ProtoFee) : List Nat :=
  pbRepeated 1 (f.amount.map encodeProtoCoin) ++ pbUint 2 f.gas_limit ++
    pbString 3 f.payer ++ pbString 4 f.granter

/-- `cosmos.tx.v1beta1.Tip`: `repeated Coin amount = 1;
string tipper = 2`. -/
structure ProtoTip where
  amount : List ProtoCoin
  tipper : String
deriving DecidableEq

def encodeProtoTip (t : ProtoTip) : List Nat :=
  pbRepeated 1 (t.amount.map encodeProtoCoin) ++ pbString 2 t.tipper

/-- `cosmos.crypto.secp256k1.PubKey`: `bytes key = 1`. -/
def encodeSecp256k1PubKey (key : List Nat) : List Nat := pbBytes 1 key

/-- `mode_info::Single`: `SignMode mode = 1` (an enum, varint). -/
structure ModeInfoSingle where
  mode : Nat
deriving DecidableEq

/-- `ModeInfo`: `oneof sum { Single single = 1; .. }`; only the `Single`
arm is built by this library. -/
structure ModeInfo where
  sum : Option ModeInfoSingle
deriving DecidableEq

def encodeModeInfo (m : ModeInfo) : List Nat :=
  match m.sum with
  | some s => lenDelim 1 (pbUint 1 s.mode)
  | none => []

/-- `cosmos.tx.v1beta1.SignerInfo`: `Any public_key = 1;
ModeInfo mode_info = 2; uint64 sequence = 3`. -/
structure SignerInfo where
  public_key : Option ProtoAny
  mode_info : Option ModeInfo
  sequence : Nat
deriving DecidableEq

def encodeSignerInfo (si : SignerInfo) : List Nat :=
  (match si.public_key with
    | some a => lenDelim 1 (encodeAny a)
    | none => []) ++
  (match si.mode_info with
    | some m => lenDelim 2 (encodeModeInfo m)
    | none => []) ++
  pbUint 3 si.sequence

/-- `cosmos.tx.v1beta1.AuthInfo`: `repeated SignerInfo signer_infos = 1;
Fee fee = 2; Tip tip = 3`. -/
structure AuthInfo where
  signer_infos : List SignerInfo
  fee : Option ProtoFee
  tip : Option ProtoTip
deriving DecidableEq

def encodeAuthInfo (ai : AuthInfo) : List Nat :=
  pbRepeated 1 (ai.signer_infos.map encodeSignerInfo) ++
  (match ai.fee with
    | some f => lenDelim 2 (encodeProtoFee f)
    | none => []) ++
  (match ai.tip with
    | some t => lenDelim 3 (encodeProtoTip t)
    | none => [])

/-- `cosmos.tx.v1beta1.TxBody`: `repeated Any messages = 1;
string memo = 2; uint64 timeout_height = 3;
repeated Any extension_options = 1023;
repeated Any non_critical_extension_options = 2047`. -/
structure TxBody where
  messages : List ProtoAny
  memo : String
  timeout_height : Nat
  extension_options : List ProtoAny
  non_critical_extension_options : List ProtoAny
deriving DecidableEq

def encodeTxBody (b : TxBody) : List Nat :=
  pbRepeated 1 (b.messages.map encodeAny) ++ pbString 2 b.memo ++
  pbUint 3 b.timeout_height ++
  pbRepeated 1023 (b.extension_options.map encodeAny) ++
  pbRepeated 2047 (b.non_critical_extension_options.map encodeAny)

/-- `cosmos.tx.v1beta1.SignDoc`: `bytes body_bytes = 1;
bytes auth_info_bytes = 2; string chain_id = 3;
uint64 account_number = 4`. -/
structure SignDoc where
  body_bytes : List Nat
  auth_info_bytes : List Nat
  chain_id : String
  account_number : Nat
deriving DecidableEq

def encodeSignDoc (d : SignDoc) : List Nat :=
  pbBytes 1 d.body_bytes ++ pbBytes 2 d.auth_info_bytes ++
  pbString 3 d.chain_id ++ pbUint 4 d.account_number

/-- `cosmos.tx.v1beta1.TxRaw`: `bytes body_bytes = 1;
bytes auth_info_bytes = 2; repeated bytes signatures = 3`. -/
structure TxRaw where
  body_bytes : List Nat
  auth_info_bytes : List Nat
  signatures : List (List Nat)
deriving DecidableEq

def encodeTxRaw (t : TxRaw) : List Nat :=
  pbBytes 1 t.body_bytes ++ pbBytes 2 t.auth_info_bytes ++
  pbRepeated 3 t.signatures

/-- `Msg` (msg.rs, the wire form used by private_key.rs): a newtype over
`Any`, accessed as `msg.0`. -/
structure Msg where
  any : ProtoAny
deriving DecidableEq

/-- Fuel-driven decimal digit worker (most significant first). -/
def natToDigitsAux : Nat → Nat → List Char
  | 0, _ => []
  | fuel + 1, n =>
      if n < 10 then [Char.ofNat (48 + n)]
      else natToDigitsAux fuel (n / 10) ++ [Char.ofNat (48 + n % 10)]

/-- Decimal display of a `Nat` (`Uint256`/`u64` `to_string`); one hundred
digit positions cover every 256-bit value. -/
def natToString (n : Nat) : String := String.mk (natToDigitsAux 100 n)

/-- `Display for Address` (address.rs): `to_bech32` with the stored prefix;
the `unwrap` cannot fail for well-formed addresses, and the error arm below
is unreachable for them. -/
def addressDisplay (a : Address) : String :=
  match a.to_bech32 a.getPfx with
  | .ok s => s
  | .error _ => ""

/-- `Fee` (coin.rs). -/
structure Fee where
  amount : List Coin
  gas_limit : Nat
  payer : Option Address
  granter : Option String
deriving DecidableEq

/-- `Tip` (absent from this copy of coin.rs; modelled after the spec's
fee/tip wire mapping, mirroring `Fee`'s): its `amount` coins and optional
tipper address. -/
structure Tip where
  amount : List Coin
  tipper : Option Address
deriving DecidableEq

/-- `From<Coin> for ProtoCoin` (coin.rs): the amount printed in decimal. -/
def protoCoinOfCoin (c : Coin) : ProtoCoin := ⟨c.denom, natToString c.amount⟩

/-- `From<Fee> for ProtoFee` (coin.rs): `None` payer/granter become empty
strings, the payer shown in bech32. -/
def protoFeeOfFee (f : Fee) : ProtoFee :=
  ⟨f.amount.map protoCoinOfCoin, f.gas_limit,
   match f.payer with
   | some a => addressDisplay a
   | none => "",
   match f.granter with
   | some g => g
   | none => ""⟩

/-- `From<Tip> for ProtoTip` (mirroring the `Fee` conversion). -/
def protoTipOfTip (t : Tip) : ProtoTip :=
  ⟨t.amount.map protoCoinOfCoin,
   match t.tipper with
   | some a => addressDisplay a
   | none => ""⟩

/-- `MessageArgs` (private_key.rs). -/
structure MessageArgs where
  sequence : Nat
  fee : Fee
  tip : Option Tip
  timeout_height : Nat
  chain_id : String
  account_number : Nat
deriving DecidableEq

/-- `TxParts` (private_key.rs). -/
structure TxParts where
  body : TxBody
  body_buf : List Nat
  auth_info : AuthInfo
  auth_buf : List Nat
  signatures : List (List Nat)
deriving DecidableEq

/-- `build_unfinished_tx` (private_key.rs), at the secp256k1 public-key
instantiation used by `build_tx`: `pubkeyProtoBytes` is the prost encoding
of the `pubkey_proto` argument.  Builds and serializes the `TxBody` (the
messages' `Any`s, the memo, the timeout height, empty extension lists) and
the `AuthInfo` (one `SignerInfo` with the public key packed in an `Any`
under the given type url, a `Single` mode of value 1 — `SIGN_MODE_DIRECT` —
and the argument sequence, plus the converted fee and optional tip); the
signature list is left empty. -/
def build_unfinished_tx (pubkeyProtoBytes : List Nat)
    (proto_type_url : String) (messages : List Msg) (args : MessageArgs)
    (memo : String) : TxParts :=
  let body : TxBody :=
    ⟨messages.map (fun m => m.any), memo, args.timeout_height, [], []⟩
  let body_buf := encodeTxBody body
  let pk_any : ProtoAny := ⟨proto_type_url, pubkeyProtoBytes⟩
  let signer_info : SignerInfo := ⟨some pk_any, some ⟨some ⟨1⟩⟩, args.sequence⟩
  let auth_info : AuthInfo :=
    ⟨[signer_info], some (protoFeeOfFee args.fee), args.tip.map protoTipOfTip⟩
  let auth_buf := encodeAuthInfo auth_info
  ⟨body, body_buf, auth_info, auth_buf, []⟩

/-- `build_tx` (private_key.rs): build the unfinished parts with this key's
compressed public key under `"/cosmos.crypto.secp256k1.PubKey"`, serialize
the `SignDoc` over the body and auth-info bytes with the chain id and
account number, SHA-256 it, sign the digest, and store the single compact
signature. -/
def build_tx (pubkeySer : List Nat → List Nat)
    (ecdsaSign : List Nat → List Nat → Nat × Nat) (key : List Nat)
    (messages : List Msg) (args : MessageArgs) (memo : String) : TxParts :=
  let unfinished := build_unfinished_tx
    (encodeSecp256k1PubKey (pubkeySer key))
    "/cosmos.crypto.secp256k1.PubKey" messages args memo
  let sign_doc : SignDoc :=
    ⟨unfinished.body_buf, unfinished.auth_buf, args.chain_id,
      args.account_number⟩
  let digest := sha256 (encodeSignDoc sign_doc)
  let rs := ecdsaSign digest key
  let compact := natToBeBytes 32 rs.1 ++ natToBeBytes 32 rs.2
  { unfinished with signatures := [compact] }

/-- `sign_std_msg` (private_key.rs): serialize the `TxRaw` assembled from
the built parts. -/
def sign_std_msg (pubkeySer : List Nat → List Nat)
    (ecdsaSign : List Nat → List Nat → Nat × Nat) (key : List Nat)
    (messages : List Msg) (args : MessageArgs) (memo : String) : List Nat :=
  let parts := build_tx pubkeySer ecdsaSign key messages args memo
  encodeTxRaw ⟨parts.body_buf, parts.auth_buf, parts.signatures⟩

end DS

namespace DS

/-! ## Lemmas: big-endian byte encodings -/

theorem natToBeBytes_length (w n : Nat) : (natToBeBytes w n).length = w := by
  simp [natToBeBytes]

theorem natToBeBytes_lt (w n : Nat) : ∀ b ∈ natToBeBytes w n, b < 256 := by
  intro b hb
  simp only [natToBeBytes, List.mem_map] at hb
  obtain ⟨i, _, rfl⟩ := hb
  exact Nat.mod_lt _ (by norm_num)

theorem natFromBeBytes_snoc (l : List Nat) (b : Nat) :
    natFromBeBytes (l ++ [b]) = natFromBeBytes l * 256 + b := by
  simp [natFromBeBytes]

theorem natToBeBytes_succ (w n : Nat) :
    natToBeBytes (w + 1) n = natToBeBytes w (n >>> 8) ++ [n % 256] := by
  simp only [natToBeBytes, List.range_succ, List.map_append, List.map_cons,
    List.map_nil]
  congr 1
  · apply List.map_congr_left
    intro i hi
    simp only [List.mem_range] at hi
    rw [← Nat.shiftRight_add]
    congr 2
    omega
  · simp

theorem natFromBeBytes_append (l m : List Nat) :
    natFromBeBytes (l ++ m) =
      natFromBeBytes l * 256 ^ m.length + natFromBeBytes m := by
  induction m using List.reverseRecOn with
  | nil => simp [natFromBeBytes]
  | append_singleton m b ih =>
      rw [← List.append_assoc, natFromBeBytes_snoc, ih, natFromBeBytes_snoc]
      simp only [List.length_append, List.length_cons, List.length_nil,
        pow_succ]
      ring

theorem natFromBeBytes_lt (l : List Nat) (h : ∀ b ∈ l, b < 256) :
    natFromBeBytes l < 256 ^ l.length := by
  induction l using List.reverseRecOn with
  | nil => simp [natFromBeBytes]
  | append_singleton m b ih =>
      rw [natFromBeBytes_snoc]
      have hb : b < 256 := h b (by simp)
      have hm : natFromBeBytes m < 256 ^ m.length :=
        ih (fun x hx => h x (by simp [hx]))
      simp only [List.length_append, List.length_cons, List.length_nil,
        pow_succ]
      calc natFromBeBytes m * 256 + b < (natFromBeBytes m + 1) * 256 := by omega
        _ ≤ 256 ^ m.length * 256 := Nat.mul_le_mul_right _ hm

/-- Round trip: decoding the fixed-width big-endian encoding gives the value
back, provided it fits in `w` bytes. -/
theorem natFromBeBytes_natToBeBytes (w n : Nat) (h : n < 256 ^ w) :
    natFromBeBytes (natToBeBytes w n) = n := by
  induction w generalizing n with
  | zero =>
      interval_cases n
      simp [natToBeBytes, natFromBeBytes]
  | succ w ih =>
      rw [natToBeBytes_succ, natFromBeBytes_snoc]
      have hlt : n >>> 8 < 256 ^ w := by
        rw [Nat.shiftRight_eq_div_pow]
        rw [Nat.div_lt_iff_lt_mul (by norm_num)]
        calc n < 256 ^ (w + 1) := h
          _ = 256 ^ w * 2 ^ 8 := by rw [pow_succ]; norm_num
      rw [ih _ hlt, Nat.shiftRight_eq_div_pow]
      have : (2 : Nat) ^ 8 = 256 := by norm_num
      rw [this]
      omega

set_option maxRecDepth 100000

/-! ## Claims C2 and C3: key derivation -/

/-- Sanity check against the `test_secret` unit test of private_key.rs:
`from_secret(b"mySecret")` produces the recorded raw key bytes. -/
theorem from_secret_mySecret :
    from_secret [0x6d, 0x79, 0x53, 0x65, 0x63, 0x72, 0x65, 0x74] =
      [208, 190, 115, 52, 41, 67, 47, 127, 0, 212, 37, 225, 171, 0, 52, 18,
       175, 167, 93, 65, 254, 40, 13, 139, 178, 235, 62, 130, 254, 252, 86,
       183] := by
  decide

/-- C2: `get_child_key` computes HMAC-SHA512 keyed by the parent chain code
over `0x00 || parent_secret || (i + 2^31)` (big-endian 32 bits) when
hardened, and over `compressed parent public key || i` otherwise; the child
secret is the left 32 bytes of the HMAC output added to the parent secret
modulo the secp256k1 curve order, and the child chain code is the right 32
bytes.  Moreover the BIP-32 test vector holds: for seed
`000102030405060708090a0b0c0d0e0f` the master secret is `e8f32e72…436b35`
with chain code `873dff81…37d508`, and the hardened child `m/0'` has secret
`edb2e14f…a0afea`. -/
theorem claim_C2 :
    (∀ (pubkeySer : List Nat → List Nat) (kParent cParent : List Nat)
        (i : Nat) (hardened : Bool),
      get_child_key pubkeySer kParent cParent i hardened =
        (let out := hmacSha512 cParent
            (if hardened then 0 :: (kParent ++ natToBeBytes 4 (i + 2 ^ 31))
             else pubkeySer kParent ++ natToBeBytes 4 i)
         (natToBeBytes 32
            ((natFromBeBytes (out.take 32) + natFromBeBytes kParent) %
              curveOrder),
          out.drop 32))) ∧
    master_key_from_seed
        [0x00, 0x01, 0x02, 0x03, 0x04, 0x05, 0x06, 0x07,
         0x08, 0x09, 0x0a, 0x0b, 0x0c, 0x0d, 0x0e, 0x0f] =
      ([0xe8, 0xf3, 0x2e, 0x72, 0x3d, 0xec, 0xf4, 0x05, 0x1a, 0xef, 0xac,
        0x8e, 0x2c, 0x93, 0xc9, 0xc5, 0xb2, 0x14, 0x31, 0x38, 0x17, 0xcd,
        0xb0, 0x1a, 0x14, 0x94, 0xb9, 0x17, 0xc8, 0x43, 0x6b, 0x35],
       [0x87, 0x3d, 0xff, 0x81, 0xc0, 0x2f, 0x52, 0x56, 0x23, 0xfd, 0x1f,
        0xe5, 0x16, 0x7e, 0xac, 0x3a, 0x55, 0xa0, 0x49, 0xde, 0x3d, 0x31,
        0x4b, 0xb4, 0x2e, 0xe2, 0x27, 0xff, 0xed, 0x37, 0xd5, 0x08]) ∧
    (get_child_key (fun _ => [])
        [0xe8, 0xf3, 0x2e, 0x72, 0x3d, 0xec, 0xf4, 0x05, 0x1a, 0xef, 0xac,
         0x8e, 0x2c, 0x93, 0xc9, 0xc5, 0xb2, 0x14, 0x31, 0x38, 0x17, 0xcd,
         0xb0, 0x1a, 0x14, 0x94, 0xb9, 0x17, 0xc8, 0x43, 0x6b, 0x35]
        [0x87, 0x3d, 0xff, 0x81, 0xc0, 0x2f, 0x52, 0x56, 0x23, 0xfd, 0x1f,
         0xe5, 0x16, 0x7e, 0xac, 0x3a, 0x55, 0xa0, 0x49, 0xde, 0x3d, 0x31,
         0x4b, 0xb4, 0x2e, 0xe2, 0x27, 0xff, 0xed, 0x37, 0xd5, 0x08]
        0 true).1 =
      [0xed, 0xb2, 0xe1, 0x4f, 0x9e, 0xe7, 0x7d, 0x26, 0xdd, 0x93, 0xb4,
       0xec, 0xed, 0xe8, 0xd1, 0x6e, 0xd4, 0x08, 0xce, 0x14, 0x9b, 0x6c,
       0xd8, 0x0b, 0x07, 0x15, 0xa2, 0xd9, 0x11, 0xa0, 0xaf, 0xea] := by
  refine ⟨?_, ?_, ?_⟩
  · intro pubkeySer kParent cParent i hardened
    cases hardened <;>
      simp [get_child_key, Nat.add_comm]
  · decide
  · decide

/-- C3: `from_secret s` is the 32-byte big-endian encoding of
`1 + (SHA-256(s) mod (curve order − 1))`, and its value is a nonzero scalar
strictly below the curve order, for every input. -/
theorem claim_C3 (s : List Nat) :
    from_secret s =
      natToBeBytes 32 (1 + natFromBeBytes (sha256 s) % (curveOrder - 1)) ∧
    0 < natFromBeBytes (from_secret s) ∧
    natFromBeBytes (from_secret s) < curveOrder := by
  have hord : (2 : Nat) ≤ curveOrder := by norm_num [curveOrder]
  have hsz : curveOrder < 256 ^ 32 := by norm_num [curveOrder]
  have hmod : natFromBeBytes (sha256 s) % (curveOrder - 1) <
      curveOrder - 1 :=
    Nat.mod_lt _ (by omega)
  have hv : natFromBeBytes (sha256 s) % (curveOrder - 1) + 1 < 256 ^ 32 := by
    omega
  have hval : natFromBeBytes (from_secret s) =
      natFromBeBytes (sha256 s) % (curveOrder - 1) + 1 := by
    simp only [from_secret]
    exact natFromBeBytes_natToBeBytes 32 _ hv
  refine ⟨?_, ?_, ?_⟩
  · simp only [from_secret]
    rw [Nat.add_comm]
  · rw [hval]; omega
  · rw [hval]; omega

/-! ## Lemmas: the bech32 checksum is self-verifying

The `polymod` state machine is linear over XOR; appending the created
checksum therefore drives the state to the Bech32 constant 1. -/

theorem nat_xor_left_comm (a b c : Nat) :
    a ^^^ (b ^^^ c) = b ^^^ (a ^^^ c) := by
  rw [← Nat.xor_assoc, Nat.xor_comm a b, Nat.xor_assoc]

theorem xor_shiftLeft_dist (x y k : Nat) :
    (x ^^^ y) <<< k = x <<< k ^^^ y <<< k := by
  apply Nat.eq_of_testBit_eq
  intro i
  simp [Nat.testBit_shiftLeft, Nat.testBit_xor, Bool.and_xor_distrib_left]

theorem xor_shiftRight_dist (x y k : Nat) :
    (x ^^^ y) >>> k = x >>> k ^^^ y >>> k := by
  apply Nat.eq_of_testBit_eq
  intro i
  simp [Nat.testBit_shiftRight, Nat.testBit_xor]

theorem ite_xor_dist (p q : Bool) (G : Nat) :
    (if (p ^^ q) = true then G else 0) =
      (if p = true then G else 0) ^^^ (if q = true then G else 0) := by
  cases p <;> cases q <;> simp

theorem genXor_xor (x y : Nat) : genXor (x ^^^ y) = genXor x ^^^ genXor y := by
  simp only [genXor, Nat.testBit_xor, ite_xor_dist]
  simp only [Nat.xor_assoc]
  simp [nat_xor_left_comm]

theorem polymodStep_xor (a b v w : Nat) :
    polymodStep (a ^^^ b) (v ^^^ w) = polymodStep a v ^^^ polymodStep b w := by
  simp only [polymodStep, Nat.and_xor_distrib_right, xor_shiftLeft_dist,
    xor_shiftRight_dist, genXor_xor]
  simp only [Nat.xor_assoc]
  simp [nat_xor_left_comm]

theorem foldl_polymodStep_xor :
    ∀ (l m : List Nat), l.length = m.length → ∀ (s t : Nat),
      (List.zipWith (· ^^^ ·) l m).foldl polymodStep (s ^^^ t) =
        l.foldl polymodStep s ^^^ m.foldl polymodStep t := by
  intro l
  induction l with
  | nil =>
      intro m hm s t
      cases m with
      | nil => simp
      | cons y ys => simp at hm
  | cons x xs ih =>
      intro m hm s t
      cases m with
      | nil => simp at hm
      | cons y ys =>
          simp only [List.zipWith_cons_cons, List.foldl_cons]
          rw [polymodStep_xor]
          exact ih ys (by simpa using hm) _ _

theorem zipWith_xor_replicate_zero (cs : List Nat) :
    List.zipWith (· ^^^ ·) (List.replicate cs.length 0) cs = cs := by
  induction cs with
  | nil => simp
  | cons c cs ih => simp [List.replicate_succ, ih]

/-- Splitting a `polymod` run: the effect of trailing input values is the
XOR of running them from state 0 with running zeros instead. -/
theorem foldl_polymodStep_split (cs : List Nat) (X : Nat) :
    cs.foldl polymodStep X =
      (List.replicate cs.length 0).foldl polymodStep X ^^^
        cs.foldl polymodStep 0 := by
  have h := foldl_polymodStep_xor (List.replicate cs.length 0) cs
    (by simp) X 0
  rw [zipWith_xor_replicate_zero, Nat.xor_zero] at h
  exact h

theorem genXor_lt (b : Nat) : genXor b < 2 ^ 30 := by
  have h : ∀ (p : Bool) (G : Nat), G < 2 ^ 30 →
      (if p = true then G else 0) < 2 ^ 30 := by
    intro p G hG
    cases p <;> simp <;> omega
  unfold genXor
  apply Nat.xor_lt_two_pow
  apply Nat.xor_lt_two_pow
  apply Nat.xor_lt_two_pow
  apply Nat.xor_lt_two_pow
  all_goals apply h; norm_num

theorem polymodStep_lt (s v : Nat) (hv : v < 32) :
    polymodStep s v < 2 ^ 30 := by
  unfold polymodStep
  apply Nat.xor_lt_two_pow
  · apply Nat.xor_lt_two_pow
    · have h1 : s &&& 0x1ffffff < 2 ^ 25 := by
        have : (0x1ffffff : Nat) = 2 ^ 25 - 1 := by norm_num
        rw [this, Nat.and_pow_two_sub_one_eq_mod]
        exact Nat.mod_lt _ (by norm_num)
      rw [Nat.shiftLeft_eq]
      calc (s &&& 0x1ffffff) * 2 ^ 5 < 2 ^ 25 * 2 ^ 5 :=
            (Nat.mul_lt_mul_right (by norm_num)).mpr h1
        _ = 2 ^ 30 := by norm_num
    · omega
  · exact genXor_lt _

theorem foldl_polymodStep_lt :
    ∀ (l : List Nat), (∀ v ∈ l, v < 32) → ∀ (s : Nat), s < 2 ^ 30 →
      l.foldl polymodStep s < 2 ^ 30 := by
  intro l
  induction l with
  | nil => intro _ s hs; simpa using hs
  | cons x xs ih =>
      intro h s _
      simp only [List.foldl_cons]
      exact ih (fun v hv => h v (by simp [hv])) _
        (polymodStep_lt s x (h x (by simp)))

theorem mul32_xor_eq_add (s v : Nat) (hv : v < 32) :
    (32 * s) ^^^ v = 32 * s + v := by
  apply Nat.eq_of_testBit_eq
  intro i
  have h32 : (32 : Nat) * s = 2 ^ 5 * s := by norm_num
  have hv' : v < 2 ^ 5 := hv
  rw [Nat.testBit_xor, h32, Nat.testBit_mul_pow_two_add s hv' i,
    Nat.testBit_mul_pow_two]
  by_cases hi : i < 5
  · simp only [if_pos hi]
    have : ¬ (i ≥ 5) := by omega
    simp [this]
  · simp only [if_neg hi]
    have h5 : i ≥ 5 := by omega
    have hvb : v.testBit i = false :=
      Nat.testBit_lt_two_pow (lt_of_lt_of_le hv' (Nat.pow_le_pow_right (by norm_num) h5))
    simp [h5, hvb]

theorem polymodStep_small (s v : Nat) (hs : s < 2 ^ 25) (hv : v < 32) :
    polymodStep s v = 32 * s + v := by
  unfold polymodStep
  have h1 : s &&& 0x1ffffff = s := by
    have : (0x1ffffff : Nat) = 2 ^ 25 - 1 := by norm_num
    rw [this, Nat.and_pow_two_sub_one_eq_mod, Nat.mod_eq_of_lt hs]
  have h2 : s >>> 25 = 0 := by
    rw [Nat.shiftRight_eq_div_pow]
    exact Nat.div_eq_of_lt hs
  have h3 : genXor 0 = 0 := by simp [genXor]
  rw [h1, h2, h3, Nat.xor_zero, Nat.shiftLeft_eq]
  have h4 : s * 2 ^ 5 = 32 * s := by ring
  rw [h4, mul32_xor_eq_add s v hv]

/-- Folding the six 5-bit chunks of a 30-bit value from state 0 rebuilds the
value. -/
theorem foldl_polymodStep_chunks (x : Nat) (hx : x < 2 ^ 30) :
    ((List.range 6).map
        (fun i => (x >>> (5 * (5 - i))) &&& 31)).foldl polymodStep 0 = x := by
  have hstep : ∀ k, k + 5 ≤ 30 →
      polymodStep (x >>> (k + 5)) ((x >>> k) &&& 31) = x >>> k := by
    intro k hk
    have hs : x >>> (k + 5) < 2 ^ 25 := by
      rw [Nat.shiftRight_eq_div_pow]
      apply Nat.div_lt_of_lt_mul
      calc x < 2 ^ 30 := hx
        _ ≤ 2 ^ (k + 5) * 2 ^ 25 := by
            rw [← pow_add]
            exact Nat.pow_le_pow_right (by norm_num) (by omega)
    have hv : (x >>> k) &&& 31 < 32 := by
      have : (x >>> k) &&& 31 ≤ 31 := Nat.and_le_right
      omega
    rw [polymodStep_small _ _ hs hv]
    have h31 : (31 : Nat) = 2 ^ 5 - 1 := by norm_num
    rw [h31, Nat.and_pow_two_sub_one_eq_mod]
    have hsh : x >>> (k + 5) = (x >>> k) >>> 5 := by
      rw [← Nat.shiftRight_add]
    rw [hsh, Nat.shiftRight_eq_div_pow ((x : Nat) >>> k) 5]
    have : (2 : Nat) ^ 5 = 32 := by norm_num
    rw [this]
    omega
  have hfirst : polymodStep 0 ((x >>> 25) &&& 31) = x >>> 25 := by
    have hv : (x >>> 25) &&& 31 < 32 := by
      have : (x >>> 25) &&& 31 ≤ 31 := Nat.and_le_right
      omega
    rw [polymodStep_small 0 _ (by norm_num) hv]
    have h31 : (31 : Nat) = 2 ^ 5 - 1 := by norm_num
    rw [h31, Nat.and_pow_two_sub_one_eq_mod]
    have hlt : x >>> 25 < 32 := by
      rw [Nat.shiftRight_eq_div_pow]
      apply Nat.div_lt_of_lt_mul
      calc x < 2 ^ 30 := hx
        _ = 2 ^ 25 * 32 := by norm_num
    omega
  have e1 := hstep 20 (by norm_num)
  have e2 := hstep 15 (by norm_num)
  have e3 := hstep 10 (by norm_num)
  have e4 := hstep 5 (by norm_num)
  have e5 := hstep 0 (by norm_num)
  norm_num at e1 e2 e3 e4 e5
  have hrange : (List.range 6) = [0, 1, 2, 3, 4, 5] := by decide
  rw [hrange]
  simp only [List.map_cons, List.map_nil, List.foldl_cons, List.foldl_nil]
  norm_num [Nat.shiftRight_zero]
  rw [hfirst, e1, e2, e3, e4, e5]

/-- The central checksum fact: a `polymod` run over expanded HRP, data and
the created checksum ends in the Bech32 constant 1. -/
theorem polymod_createChecksum (hrp data : List Nat)
    (hh : ∀ v ∈ hrp, v < 256) (hd : ∀ v ∈ data, v < 32) :
    polymod (hrpExpand hrp ++ data ++ createChecksum hrp data) = 1 := by
  have key : ∀ (u w : List Nat) (s : Nat),
      (u ++ w).foldl polymodStep s =
        w.foldl polymodStep (u.foldl polymodStep s) :=
    fun u w s => List.foldl_append polymodStep s u w
  have hvals : ∀ v ∈ hrpExpand hrp ++ data, v < 32 := by
    intro v hv
    rcases List.mem_append.mp hv with h | h
    · simp only [hrpExpand, List.mem_append, List.mem_cons, List.mem_map] at h
      rcases h with ⟨b, hb, rfl⟩ | h
      · have hb2 : b < 256 := hh b hb
        have : b >>> 5 < 32 := by
          rw [Nat.shiftRight_eq_div_pow]
          omega
        omega
      · rcases h with rfl | ⟨b, hb, rfl⟩
        · omega
        · have : b &&& 31 ≤ 31 := Nat.and_le_right
          omega
    · exact hd v h
  have hPlt : polymod (hrpExpand hrp ++ data ++ [0, 0, 0, 0, 0, 0]) <
      2 ^ 30 := by
    unfold polymod
    apply foldl_polymodStep_lt
    · intro v hv
      rcases List.mem_append.mp hv with h | h
      · exact hvals v h
      · simp only [List.mem_cons, List.not_mem_nil, or_false] at h
        rcases h with rfl | rfl | rfl | rfl | rfl | rfl <;> omega
    · norm_num
  have hx : polymod (hrpExpand hrp ++ data ++ [0, 0, 0, 0, 0, 0]) ^^^ 1 <
      2 ^ 30 := Nat.xor_lt_two_pow hPlt (by norm_num)
  have hcs : createChecksum hrp data =
      (List.range 6).map (fun i =>
        ((polymod (hrpExpand hrp ++ data ++ [0, 0, 0, 0, 0, 0]) ^^^ 1) >>>
          (5 * (5 - i))) &&& 31) := rfl
  show polymod ((hrpExpand hrp ++ data) ++ createChecksum hrp data) = 1
  unfold polymod
  rw [key (hrpExpand hrp ++ data) (createChecksum hrp data) 1]
  rw [foldl_polymodStep_split]
  have hlen : (createChecksum hrp data).length = 6 := by
    rw [hcs]; simp
  rw [hlen]
  have hrepl : (List.replicate 6 (0 : Nat)).foldl polymodStep
      ((hrpExpand hrp ++ data).foldl polymodStep 1) =
      polymod (hrpExpand hrp ++ data ++ [0, 0, 0, 0, 0, 0]) := by
    unfold polymod
    rw [key (hrpExpand hrp ++ data) [0, 0, 0, 0, 0, 0] 1]
    rfl
  rw [hrepl]
  have hchunks : (createChecksum hrp data).foldl polymodStep 0 =
      polymod (hrpExpand hrp ++ data ++ [0, 0, 0, 0, 0, 0]) ^^^ 1 := by
    rw [hcs]
    exact foldl_polymodStep_chunks _ hx
  rw [hchunks, ← Nat.xor_assoc, Nat.xor_self, Nat.zero_xor]

/-! ## Lemmas: 8-bit / 5-bit regrouping round trip -/

theorem bitsToNat_snoc (l : List Bool) (b : Bool) :
    bitsToNat (l ++ [b]) = 2 * bitsToNat l + (if b then 1 else 0) := by
  simp [bitsToNat]

theorem bitsToNat_lt (l : List Bool) : bitsToNat l < 2 ^ l.length := by
  induction l using List.reverseRecOn with
  | nil => simp [bitsToNat]
  | append_singleton m b ih =>
      rw [bitsToNat_snoc]
      simp only [List.length_append, List.length_cons, List.length_nil,
        pow_succ]
      cases b <;> simp <;> omega

theorem natBitsBE_length (w n : Nat) : (natBitsBE w n).length = w := by
  simp [natBitsBE]

theorem natBitsBE_succ (w n : Nat) :
    natBitsBE (w + 1) n = natBitsBE w (n >>> 1) ++ [n.testBit 0] := by
  simp only [natBitsBE, List.range_succ, List.map_append, List.map_cons,
    List.map_nil]
  congr 1
  · apply List.map_congr_left
    intro i hi
    simp only [List.mem_range] at hi
    rw [Nat.testBit_shiftRight]
    congr 1
    omega
  · simp

/-- A bit list of length `w` is recovered from its value. -/
theorem natBitsBE_bitsToNat :
    ∀ (l : List Bool), natBitsBE l.length (bitsToNat l) = l := by
  intro l
  induction l using List.reverseRecOn with
  | nil => simp [natBitsBE, bitsToNat]
  | append_singleton m b ih =>
      rw [bitsToNat_snoc]
      simp only [List.length_append, List.length_cons, List.length_nil]
      rw [natBitsBE_succ]
      have h1 : (2 * bitsToNat m + (if b then 1 else 0)) >>> 1 =
          bitsToNat m := by
        rw [Nat.shiftRight_eq_div_pow]
        cases b <;> simp <;> omega
      have h2 : (2 * bitsToNat m + (if b then 1 else 0)).testBit 0 = b := by
        rw [Nat.testBit_zero]
        cases b <;> simp <;> omega
      rw [h1, h2, ih]

/-- The value of the bit list of `n` is `n`, for `n` within width. -/
theorem bitsToNat_natBitsBE (w : Nat) :
    ∀ (n : Nat), n < 2 ^ w → bitsToNat (natBitsBE w n) = n := by
  induction w with
  | zero =>
      intro n h
      interval_cases n
      simp [natBitsBE, bitsToNat]
  | succ w ih =>
      intro n h
      rw [natBitsBE_succ, bitsToNat_snoc]
      have hlt : n >>> 1 < 2 ^ w := by
        rw [Nat.shiftRight_eq_div_pow]
        rw [pow_succ] at h
        omega
      rw [ih _ hlt, Nat.shiftRight_eq_div_pow, Nat.testBit_zero]
      rcases Nat.mod_two_eq_zero_or_one n with hp | hp <;> simp [hp] <;> omega

theorem chunkAux_emit {α : Type _} (k : Nat) :
    ∀ (cnt : Nat) (l acc : List α), 1 ≤ cnt → cnt ≤ l.length →
      chunkAux k acc cnt l =
        (acc.reverse ++ l.take cnt) :: chunkAux k [] k (l.drop cnt) := by
  intro cnt
  induction cnt with
  | zero => intro l acc h1 _; omega
  | succ c ihc =>
      intro l acc _ h2
      cases l with
      | nil => simp at h2
      | cons x xs =>
          by_cases hc : c = 0
          · subst hc
            simp [chunkAux]
          · have hgt : ¬ (c + 1 ≤ 1) := by omega
            simp only [chunkAux, if_neg hgt, Nat.add_sub_cancel]
            rw [ihc xs (x :: acc) (by omega)
              (by simp only [List.length_cons] at h2; omega)]
            simp [List.take_succ_cons, List.drop_succ_cons]

theorem chunkList_nil (k : Nat) : chunkList k ([] : List α) = [] := by
  unfold chunkList chunkAux
  simp

theorem chunkList_cons (k : Nat) (hk : 1 ≤ k) (l : List α)
    (hl : k ≤ l.length) :
    chunkList k l = l.take k :: chunkList k (l.drop k) := by
  unfold chunkList
  rw [if_neg (by omega), if_neg (by omega)]
  rw [chunkAux_emit k k l [] hk hl]
  simp

/-- Chunking a list whose length is a multiple of `k`: the chunks flatten
back to the list and all have length `k`. -/
theorem chunkList_flatten {α : Type _} (k : Nat) (hk : 1 ≤ k) :
    ∀ (n : Nat) (l : List α), l.length ≤ n → k ∣ l.length →
      (chunkList k l).flatten = l ∧ ∀ c ∈ chunkList k l, c.length = k := by
  intro n
  induction n with
  | zero =>
      intro l hl _
      have : l = [] := List.eq_nil_of_length_eq_zero (by omega)
      subst this
      simp [chunkList_nil]
  | succ n ihn =>
      intro l hl hdvd
      cases l with
      | nil => simp [chunkList_nil]
      | cons x xs =>
          have hlen : 1 ≤ (x :: xs).length := by simp
          have hkle : k ≤ (x :: xs).length := by
            rcases hdvd with ⟨m, hm⟩
            rcases Nat.eq_zero_or_pos m with rfl | hmp
            · simp at hm
            · calc k = k * 1 := by ring
                _ ≤ k * m := Nat.mul_le_mul_left k hmp
                _ = (x :: xs).length := hm.symm
          rw [chunkList_cons k hk _ hkle]
          have hdrop : ((x :: xs).drop k).length ≤ n := by
            simp only [List.length_drop]
            simp only [List.length_cons] at hl ⊢
            omega
          have hdvd2 : k ∣ ((x :: xs).drop k).length := by
            simp only [List.length_drop]
            exact (Nat.dvd_sub' hdvd (Nat.dvd_refl k))
          obtain ⟨ihf, ihl⟩ := ihn _ hdrop hdvd2
          constructor
          · simp only [List.flatten_cons, ihf]
            exact List.take_append_drop k (x :: xs)
          · intro c hc
            rcases List.mem_cons.mp hc with rfl | hmem
            · simp only [List.length_take, List.length_cons]
              simp only [List.length_cons] at hkle
              omega
            · exact ihl c hmem

/-- Chunking the flattening of uniformly sized lists gives them back. -/
theorem chunkList_flatten_map {α : Type _} (k : Nat) (hk : 1 ≤ k) :
    ∀ (ls : List (List α)), (∀ c ∈ ls, c.length = k) →
      chunkList k ls.flatten = ls := by
  intro ls
  induction ls with
  | nil => simp [chunkList_nil]
  | cons c rest ih =>
      intro h
      have hc : c.length = k := h c (by simp)
      have hkle : k ≤ (c :: rest).flatten.length := by
        simp only [List.flatten_cons, List.length_append]
        omega
      rw [List.flatten_cons, chunkList_cons k hk _ (by simpa using hkle)]
      have ht : (c ++ rest.flatten).take k = c := by
        rw [← hc]
        exact List.take_left c rest.flatten
      have hd : (c ++ rest.flatten).drop k = rest.flatten := by
        rw [← hc]
        exact List.drop_left c rest.flatten
      rw [ht, hd, ih (fun x hx => h x (by simp [hx]))]

theorem toBase32_lt (bytes : List Nat) : ∀ v ∈ toBase32 bytes, v < 32 := by
  intro v hv
  simp only [toBase32, List.mem_map] at hv
  obtain ⟨c, hc, rfl⟩ := hv
  have hlen : ∀ d ∈ chunkList 5
      ((bytes.map (natBitsBE 8)).flatten ++
        List.replicate ((5 - (bytes.map (natBitsBE 8)).flatten.length % 5) % 5)
          false), d.length = 5 := by
    have hdvd : (5 : Nat) ∣
        ((bytes.map (natBitsBE 8)).flatten ++
          List.replicate
            ((5 - (bytes.map (natBitsBE 8)).flatten.length % 5) % 5)
            false).length := by
      simp only [List.length_append, List.length_replicate]
      omega
    exact (chunkList_flatten 5 (by norm_num) _ _ (le_refl _) hdvd).2
  have := hlen c hc
  calc bitsToNat c < 2 ^ c.length := bitsToNat_lt c
    _ = 32 := by rw [this]; norm_num

theorem flatten_natBitsBE_length (w : Nat) (l : List Nat) :
    ((l.map (natBitsBE w)).flatten).length = w * l.length := by
  induction l with
  | nil => simp
  | cons b bs ih =>
      simp only [List.map_cons, List.flatten_cons, List.length_append,
        natBitsBE_length, List.length_cons, ih]
      ring

theorem any_replicate_false (p : Nat) :
    (List.replicate p false).any id = false := by
  induction p with
  | zero => rfl
  | succ p ih => simp [List.replicate_succ, ih]

/-- Round trip: converting bytes to 5-bit groups and back recovers the
bytes, for byte-valued inputs. -/
theorem fromBase32_toBase32 (bytes : List Nat) (h : ∀ b ∈ bytes, b < 256) :
    fromBase32 (toBase32 bytes) = .ok bytes := by
  have hbits : ∀ c ∈ bytes.map (natBitsBE 8), c.length = 8 := by
    intro c hc
    simp only [List.mem_map] at hc
    obtain ⟨b, _, rfl⟩ := hc
    exact natBitsBE_length 8 b
  have hblen : (bytes.map (natBitsBE 8)).flatten.length = 8 * bytes.length :=
    flatten_natBitsBE_length 8 bytes
  set B := (bytes.map (natBitsBE 8)).flatten with hB
  set p := (5 - B.length % 5) % 5 with hp
  set padded := B ++ List.replicate p false with hpadded
  have hplen : padded.length = 8 * bytes.length + p := by
    rw [hpadded]
    simp only [List.length_append, List.length_replicate, hblen]
  have hpdvd : (5 : Nat) ∣ padded.length := by
    rw [hplen, hp, hblen]
    omega
  obtain ⟨hflat, hchlen⟩ :=
    chunkList_flatten 5 (by norm_num) padded.length padded (le_refl _) hpdvd
  have hdata : toBase32 bytes = (chunkList 5 padded).map bitsToNat := rfl
  have hlt := toBase32_lt bytes
  have hany : (toBase32 bytes).any (fun v => decide (32 ≤ v)) = false := by
    rw [List.any_eq_false]
    intro v hv
    simp only [decide_eq_true_eq]
    have := hlt v hv
    omega
  have hmap5 : (toBase32 bytes).map (natBitsBE 5) = chunkList 5 padded := by
    rw [hdata, List.map_map]
    have hcongr : ∀ c ∈ chunkList 5 padded,
        (natBitsBE 5 ∘ bitsToNat) c = id c := by
      intro c hc
      have h5 : c.length = 5 := hchlen c hc
      simp only [Function.comp_apply, id]
      rw [← h5, natBitsBE_bitsToNat]
    rw [List.map_congr_left hcongr, List.map_id]
  have hplt : p < 5 := by
    rw [hp]
    omega
  simp only [fromBase32, hany, Bool.false_eq_true, if_false]
  rw [hmap5, hflat, hplen]
  have hr : (8 * bytes.length + p) % 8 = p := by omega
  rw [hr]
  have hsub : 8 * bytes.length + p - p = B.length := by
    rw [hblen]
    omega
  rw [hsub]
  have hdropB : padded.drop B.length = List.replicate p false := by
    rw [hpadded]
    exact List.drop_left B _
  have htakeB : padded.take B.length = B := by
    rw [hpadded]
    exact List.take_left B _
  rw [hdropB, htakeB]
  have hguard : (decide (5 ≤ p) || (List.replicate p false).any id) = false := by
    rw [any_replicate_false]
    simp
    omega
  rw [hguard]
  simp only [Bool.false_eq_true, if_false]
  rw [hB, chunkList_flatten_map 8 (by norm_num) _ hbits, List.map_map]
  have hcongr8 : ∀ b ∈ bytes, (bitsToNat ∘ natBitsBE 8) b = id b := by
    intro b hb
    simp only [Function.comp_apply, id]
    exact bitsToNat_natBitsBE 8 b (by have := h b hb; norm_num; omega)
  rw [List.map_congr_left hcongr8, List.map_id]

/-! ## Lemmas: bech32 string assembly -/

theorem utf8Size_of_ascii (c : Char) (h : c.toNat ≤ 126) : c.utf8Size = 1 := by
  unfold Char.utf8Size
  rw [if_pos]
  rw [UInt32.le_def, BitVec.le_def]
  change c.toNat ≤ 127
  omega

theorem utf8ByteSizeGo_ascii :
    ∀ (l : List Char), (∀ c ∈ l, c.toNat ≤ 126) →
      String.utf8ByteSize.go l = l.length := by
  intro l
  induction l with
  | nil => intro _; rfl
  | cons c cs ih =>
      intro h
      show String.utf8ByteSize.go cs + c.utf8Size = cs.length + 1
      rw [utf8Size_of_ascii c (h c (by simp)),
        ih (fun x hx => h x (by simp [hx]))]

theorem utf8ByteSize_ascii (s : String)
    (h : ∀ c ∈ s.toList, c.toNat ≤ 126) : s.utf8ByteSize = s.length := by
  rcases s with ⟨l⟩
  exact utf8ByteSizeGo_ascii l h

theorem toList_ne_nil (s : String) (h : s ≠ "") : s.toList ≠ [] := by
  intro hc
  apply h
  rcases s with ⟨l⟩
  simp only [String.toList] at hc
  rw [hc]

theorem splitLast1_of_not_mem :
    ∀ (l : List Char), '1' ∉ l → splitLast1 l = none := by
  intro l
  induction l with
  | nil => intro _; rfl
  | cons c rest ih =>
      intro h
      simp only [List.mem_cons, not_or] at h
      obtain ⟨h1, h2⟩ := h
      simp only [splitLast1, ih h2]
      rw [if_neg (fun hc => h1 hc.symm)]

theorem splitLast1_append (h d : List Char) (hd : '1' ∉ d) :
    splitLast1 (h ++ '1' :: d) = some (h, d) := by
  induction h with
  | nil =>
      simp only [List.nil_append, splitLast1, splitLast1_of_not_mem d hd]
      simp
  | cons c rest ih =>
      simp only [List.cons_append, splitLast1, List.append_eq, ih]

/-- The data charset: decoding a data character recovers its value, the
characters are never uppercase, never the separator, and fixed by
lowercasing. -/
theorem charset_facts : ∀ v : Nat, v < 32 →
    bech32CharVal (bech32Charset.getD v ' ') = some v ∧
    isUpperA (bech32Charset.getD v ' ') = false ∧
    bech32Charset.getD v ' ' ≠ '1' ∧
    asciiLower (bech32Charset.getD v ' ') = bech32Charset.getD v ' ' := by
  decide

theorem asciiLower_of_not_upper (c : Char) (h : isUpperA c = false) :
    asciiLower c = c := by
  unfold isUpperA at h
  unfold asciiLower
  rw [if_neg]
  rw [h]
  simp

theorem mapM_charVal (vals : List Nat) (h : ∀ v ∈ vals, v < 32) :
    (vals.map (fun v => bech32Charset.getD v ' ')).mapM bech32CharVal =
      some vals := by
  induction vals with
  | nil => rfl
  | cons v vs ih =>
      simp only [List.map_cons, List.mapM_cons]
      rw [(charset_facts v (h v (by simp))).1]
      rw [ih (fun x hx => h x (by simp [hx]))]
      rfl

theorem createChecksum_lt (hrp data : List Nat) :
    ∀ v ∈ createChecksum hrp data, v < 32 := by
  intro v hv
  simp only [createChecksum, List.mem_map] at hv
  obtain ⟨i, _, rfl⟩ := hv
  exact lt_of_le_of_lt Nat.and_le_right (by norm_num)

/-- Decoding an encoded bech32 string gives back the HRP and data, for a
valid all-non-uppercase HRP and 5-bit data. -/
theorem bech32Decode_encode (hrp : List Char) (data : List Nat)
    (hne : hrp ≠ []) (hlen : hrp.length ≤ 83)
    (hchars : ∀ c ∈ hrp, 33 ≤ c.toNat ∧ c.toNat ≤ 126)
    (hnoupper : ∀ c ∈ hrp, isUpperA c = false)
    (hdlt : ∀ v ∈ data, v < 32) :
    ∃ out, bech32Encode hrp data = .ok out ∧
      bech32Decode out = .ok (hrp, data, .bech32) := by
  have hDlt : ∀ v ∈ data ++ createChecksum (hrp.map Char.toNat) data,
      v < 32 := by
    intro v hv
    rcases List.mem_append.mp hv with h | h
    · exact hdlt v h
    · exact createChecksum_lt _ _ v h
  have hisEmpty : hrp.isEmpty = false := by
    cases hrp with
    | nil => exact absurd rfl hne
    | cons c cs => rfl
  have hlen2 : decide (83 < hrp.length) = false := decide_eq_false (by omega)
  have hall : hrp.all (fun c => 33 ≤ c.toNat && c.toNat ≤ 126) = true := by
    rw [List.all_eq_true]
    intro c hc
    have := hchars c hc
    simp only [Bool.and_eq_true, decide_eq_true_eq]
    omega
  have hanyU : hrp.any isUpperA = false := by
    rw [List.any_eq_false]
    intro c hc
    rw [hnoupper c hc]
    simp
  have hcheck : checkHrp hrp = .ok () := by
    unfold checkHrp
    rw [hisEmpty, hlen2, hall, hanyU]
    simp
  have hmapLower : hrp.map asciiLower = hrp := by
    rw [List.map_congr_left
      (fun c hc => asciiLower_of_not_upper c (hnoupper c hc))]
    exact List.map_id hrp
  refine ⟨hrp ++ '1' ::
    (data ++ createChecksum (hrp.map Char.toNat) data).map
      (fun v => bech32Charset.getD v ' '), ?_, ?_⟩
  · simp only [bech32Encode, hcheck]
    rw [hmapLower]
  · set dataChars := (data ++ createChecksum (hrp.map Char.toNat) data).map
      (fun v => bech32Charset.getD v ' ') with hdataChars
    have hdU : dataChars.any isUpperA = false := by
      rw [List.any_eq_false]
      intro c hc
      rw [hdataChars] at hc
      simp only [List.mem_map] at hc
      obtain ⟨v, hv, rfl⟩ := hc
      rw [(charset_facts v (hDlt v hv)).2.1]
      simp
    have houtU : (hrp ++ '1' :: dataChars).any isUpperA = false := by
      rw [List.any_append, List.any_cons, hanyU, hdU]
      rfl
    have hnoupOut : ∀ c ∈ hrp ++ '1' :: dataChars, isUpperA c = false := by
      have := List.any_eq_false.mp houtU
      intro c hc
      have h2 := this c hc
      revert h2
      cases isUpperA c <;> simp
    have hmapLowerOut : (hrp ++ '1' :: dataChars).map asciiLower =
        hrp ++ '1' :: dataChars := by
      rw [List.map_congr_left
        (fun c hc => asciiLower_of_not_upper c (hnoupOut c hc))]
      exact List.map_id _
    have h1notin : '1' ∉ dataChars := by
      intro hmem
      rw [hdataChars] at hmem
      simp only [List.mem_map] at hmem
      obtain ⟨v, hv, heq⟩ := hmem
      exact (charset_facts v (hDlt v hv)).2.2.1 heq
    have hsplit : splitLast1 (hrp ++ '1' :: dataChars) =
        some (hrp, dataChars) := splitLast1_append hrp dataChars h1notin
    have hcslen : (createChecksum (hrp.map Char.toNat) data).length = 6 := by
      simp [createChecksum]
    have hdcl : dataChars.length = data.length + 6 := by
      rw [hdataChars]
      simp only [List.length_map, List.length_append, hcslen]
    have hmapM : dataChars.mapM bech32CharVal =
        some (data ++ createChecksum (hrp.map Char.toNat) data) :=
      mapM_charVal _ hDlt
    have hh256 : ∀ v ∈ hrp.map Char.toNat, v < 256 := by
      intro v hv
      simp only [List.mem_map] at hv
      obtain ⟨c, hc, rfl⟩ := hv
      have := hchars c hc
      omega
    have hpoly : polymod (hrpExpand (hrp.map Char.toNat) ++
        (data ++ createChecksum (hrp.map Char.toNat) data)) = 1 := by
      rw [← List.append_assoc]
      exact polymod_createChecksum (hrp.map Char.toNat) data hh256 hdlt
    have htake : (data ++ createChecksum (hrp.map Char.toNat) data).take
        ((data ++ createChecksum (hrp.map Char.toNat) data).length - 6) =
        data := by
      have hl2 : (data ++ createChecksum (hrp.map Char.toNat) data).length -
          6 = data.length := by
        simp only [List.length_append, hcslen]
        omega
      rw [hl2]
      exact List.take_left data _
    unfold bech32Decode
    rw [houtU]
    simp only [Bool.false_and, Bool.false_eq_true, if_false]
    rw [hmapLowerOut]
    simp only [hsplit, hcheck]
    rw [if_neg (show ¬ (dataChars.length < 6) by omega)]
    simp only [hmapM, hpoly, if_pos, htake]

/-- C5 (amended): for every well-formed `Address` whose prefix is nonempty,
consists of ASCII characters in `!`..`~` with no uppercase letters, and has
at most 32 UTF-8 bytes (the `ArrayString` bound), decoding the bech32 string
produced with the stored prefix yields an address equal to the original
(same payload bytes and same prefix). -/
theorem claim_C5 (a : Address) (hwf : a.wf) (hne : a.getPfx ≠ "")
    (hchars : ∀ c ∈ a.getPfx.toList, 33 ≤ c.toNat ∧ c.toNat ≤ 126)
    (hnoupper : ∀ c ∈ a.getPfx.toList, isUpperA c = false)
    (hsize : a.getPfx.utf8ByteSize ≤ 32) :
    ∃ s : String, a.to_bech32 a.getPfx = .ok s ∧
      Address.from_bech32 s = .ok a := by
  cases a with
  | base b p =>
      obtain ⟨hblen, hb256⟩ := hwf
      rcases p with ⟨⟨pl⟩⟩
      have hchars2 : ∀ c ∈ pl, 33 ≤ c.toNat ∧ c.toNat ≤ 126 := hchars
      have hnoupper2 : ∀ c ∈ pl, isUpperA c = false := hnoupper
      have hsize2 : (String.mk pl).utf8ByteSize ≤ 32 := hsize
      have hplne : pl ≠ [] := toList_ne_nil (String.mk pl) hne
      have hlen83 : pl.length ≤ 83 := by
        have hgo := utf8ByteSizeGo_ascii pl
          (fun c hc => (hchars2 c hc).2)
        have : String.utf8ByteSize.go pl ≤ 32 := hsize2
        omega
      obtain ⟨out, henc, hdec⟩ := bech32Decode_encode pl (toBase32 b)
        hplne hlen83 hchars2 hnoupper2 (toBase32_lt b)
      refine ⟨String.mk out, ?_, ?_⟩
      · have hscrut : bech32Encode
            ((Address.base b ⟨String.mk pl⟩).getPfx).toList
            (toBase32 (Address.base b ⟨String.mk pl⟩).getBytes) =
            .ok out := henc
        unfold Address.to_bech32
        rw [hscrut]
      · have hscrut2 : bech32Decode (String.mk out).toList =
            .ok (pl, toBase32 b, .bech32) := hdec
        unfold Address.from_bech32
        rw [hscrut2]
        simp only [fromBase32_toBase32 b hb256]
        rw [if_pos hblen]
        have hnew : ArrayString.new (String.mk pl) =
            .ok ⟨String.mk pl⟩ := by
          unfold ArrayString.new
          rw [if_neg (by omega)]
        rw [hnew]
  | derived b p =>
      obtain ⟨hblen, hb256⟩ := hwf
      rcases p with ⟨⟨pl⟩⟩
      have hchars2 : ∀ c ∈ pl, 33 ≤ c.toNat ∧ c.toNat ≤ 126 := hchars
      have hnoupper2 : ∀ c ∈ pl, isUpperA c = false := hnoupper
      have hsize2 : (String.mk pl).utf8ByteSize ≤ 32 := hsize
      have hplne : pl ≠ [] := toList_ne_nil (String.mk pl) hne
      have hlen83 : pl.length ≤ 83 := by
        have hgo := utf8ByteSizeGo_ascii pl
          (fun c hc => (hchars2 c hc).2)
        have : String.utf8ByteSize.go pl ≤ 32 := hsize2
        omega
      obtain ⟨out, henc, hdec⟩ := bech32Decode_encode pl (toBase32 b)
        hplne hlen83 hchars2 hnoupper2 (toBase32_lt b)
      refine ⟨String.mk out, ?_, ?_⟩
      · have hscrut : bech32Encode
            ((Address.derived b ⟨String.mk pl⟩).getPfx).toList
            (toBase32 (Address.derived b ⟨String.mk pl⟩).getBytes) =
            .ok out := henc
        unfold Address.to_bech32
        rw [hscrut]
      · have hscrut2 : bech32Decode (String.mk out).toList =
            .ok (pl, toBase32 b, .bech32) := hdec
        unfold Address.from_bech32
        rw [hscrut2]
        simp only [fromBase32_toBase32 b hb256]
        rw [if_neg (by omega), if_pos hblen]
        have hnew : ArrayString.new (String.mk pl) =
            .ok ⟨String.mk pl⟩ := by
          unfold ArrayString.new
          rw [if_neg (by omega)]
        rw [hnew]

/-- C5 counterexample: the round trip fails as stated for an address whose
stored prefix contains an uppercase letter.  `Address::from_slice` accepts
the prefix `"A"`, but the bech32 crate lowercases the HRP while encoding
(the checksum is computed over the lowercased HRP), so decoding *succeeds*
and returns the prefix `"a"` — an address different from the original. -/
theorem claim_C5_counterexample :
    Address.from_slice (List.replicate 20 0) "A" =
      .ok (Address.base (List.replicate 20 0) ⟨"A"⟩) ∧
    ((Address.base (List.replicate 20 0) ⟨"A"⟩).to_bech32
        ((Address.base (List.replicate 20 0) ⟨"A"⟩).getPfx)).bind
      Address.from_bech32 =
      .ok (Address.base (List.replicate 20 0) ⟨"a"⟩) ∧
    Address.base (List.replicate 20 0) ⟨"a"⟩ ≠
      Address.base (List.replicate 20 0) ⟨"A"⟩ := by
  exact ⟨by decide, by decide, by decide⟩

/-- Witness for C5 at a concrete address: 20 zero bytes with prefix
`"cosmos"`. -/
theorem claim_C5_witness :
    ∃ s : String,
      (Address.base (List.replicate 20 0) ⟨"cosmos"⟩).to_bech32
        ((Address.base (List.replicate 20 0) ⟨"cosmos"⟩).getPfx) = .ok s ∧
      Address.from_bech32 s =
        .ok (Address.base (List.replicate 20 0) ⟨"cosmos"⟩) :=
  claim_C5 (Address.base (List.replicate 20 0) ⟨"cosmos"⟩)
    ⟨by decide, by decide⟩ (by decide) (by decide) (by decide) (by decide)

/-! ## Claim C6: address length invariant -/

theorem ArrayString_new_cases (p : String) :
    (ArrayString.new p = .ok ⟨p⟩ ∧ p.utf8ByteSize ≤ 32) ∨
    (ArrayString.new p = .error .tooLong ∧ 32 < p.utf8ByteSize) := by
  unfold ArrayString.new
  by_cases h : 32 < p.utf8ByteSize
  · right
    rw [if_pos h]
    exact ⟨rfl, h⟩
  · left
    rw [if_neg h]
    exact ⟨rfl, by omega⟩

/-- C6: `Address::from_slice` succeeds exactly when the slice has 20 or 32
bytes and the prefix fits the bounded prefix string; any other slice length
fails with `BytesDecodeErrorWrongLength`.  Every address produced by
`from_slice` or `from_bech32` has exactly 20 or 32 payload bytes, and
`change_prefix` preserves the payload bytes. -/
theorem claim_C6 :
    (∀ (bytes : List Nat) (pfxStr : String),
      (∃ a, Address.from_slice bytes pfxStr = .ok a) ↔
        ((bytes.length = 20 ∨ bytes.length = 32) ∧
          pfxStr.utf8ByteSize ≤ 32)) ∧
    (∀ (bytes : List Nat) (pfxStr : String),
      bytes.length ≠ 20 → bytes.length ≠ 32 →
      Address.from_slice bytes pfxStr =
        .error .bytesDecodeErrorWrongLength) ∧
    (∀ (bytes : List Nat) (pfxStr : String) (a : Address),
      Address.from_slice bytes pfxStr = .ok a →
      (a.getBytes.length = 20 ∨ a.getBytes.length = 32)) ∧
    (∀ (s : String) (a : Address), Address.from_bech32 s = .ok a →
      (a.getBytes.length = 20 ∨ a.getBytes.length = 32)) ∧
    (∀ (a : Address) (p : String) (b : Address),
      a.change_prefix p = .ok b → b.getBytes = a.getBytes) := by
  have hslice : ∀ (bytes : List Nat) (pfxStr : String) (a : Address),
      Address.from_slice bytes pfxStr = .ok a →
      ((bytes.length = 20 ∨ bytes.length = 32) ∧
        pfxStr.utf8ByteSize ≤ 32 ∧ a.getBytes = bytes) := by
    intro bytes pfxStr a ha
    unfold Address.from_slice at ha
    rcases ArrayString_new_cases pfxStr with ⟨hok, hle⟩ | ⟨herr, hgt⟩
    · by_cases h20 : bytes.length = 20
      · rw [if_pos h20, hok] at ha
        cases ha
        exact ⟨Or.inl h20, hle, rfl⟩
      · rw [if_neg h20] at ha
        by_cases h32 : bytes.length = 32
        · rw [if_pos h32, hok] at ha
          cases ha
          exact ⟨Or.inr h32, hle, rfl⟩
        · rw [if_neg h32] at ha
          cases ha
    · by_cases h20 : bytes.length = 20
      · rw [if_pos h20, herr] at ha
        cases ha
      · rw [if_neg h20] at ha
        by_cases h32 : bytes.length = 32
        · rw [if_pos h32, herr] at ha
          cases ha
        · rw [if_neg h32] at ha
          cases ha
  refine ⟨?_, ?_, ?_, ?_, ?_⟩
  · intro bytes pfxStr
    constructor
    · rintro ⟨a, ha⟩
      obtain ⟨h1, h2, _⟩ := hslice bytes pfxStr a ha
      exact ⟨h1, h2⟩
    · rintro ⟨h1, h2⟩
      obtain ⟨hok, -⟩ := (ArrayString_new_cases pfxStr).resolve_right
        (fun ⟨_, hgt⟩ => by omega)
      rcases h1 with h20 | h32
      · exact ⟨.base bytes ⟨pfxStr⟩, by
          unfold Address.from_slice
          rw [if_pos h20, hok]⟩
      · by_cases h20 : bytes.length = 20
        · exact ⟨.base bytes ⟨pfxStr⟩, by
            unfold Address.from_slice
            rw [if_pos h20, hok]⟩
        · exact ⟨.derived bytes ⟨pfxStr⟩, by
            unfold Address.from_slice
            rw [if_neg h20, if_pos h32, hok]⟩
  · intro bytes pfxStr h20 h32
    unfold Address.from_slice
    rw [if_neg h20, if_neg h32]
  · intro bytes pfxStr a ha
    obtain ⟨h1, _, h3⟩ := hslice bytes pfxStr a ha
    rw [h3]
    exact h1
  · intro s a ha
    unfold Address.from_bech32 at ha
    rcases hdec : bech32Decode s.toList with e | ⟨hrp, data, v⟩
    · simp only [hdec] at ha
      exact Except.noConfusion ha
    · simp only [hdec] at ha
      rcases hfb : fromBase32 data with e | vec
      · simp only [hfb] at ha
        exact Except.noConfusion ha
      · simp only [hfb] at ha
        by_cases h20 : vec.length = 20
        · rw [if_pos h20] at ha
          rcases ArrayString_new_cases (String.mk hrp) with ⟨hok, _⟩ |
            ⟨herr, _⟩
          · simp only [hok] at ha
            cases ha
            exact Or.inl h20
          · simp only [herr] at ha
            exact Except.noConfusion ha
        · rw [if_neg h20] at ha
          by_cases h32 : vec.length = 32
          · rw [if_pos h32] at ha
            rcases ArrayString_new_cases (String.mk hrp) with ⟨hok, _⟩ |
              ⟨herr, _⟩
            · simp only [hok] at ha
              cases ha
              exact Or.inr h32
            · simp only [herr] at ha
              exact Except.noConfusion ha
          · rw [if_neg h32] at ha
            exact Except.noConfusion ha
  · intro a p b hab
    unfold Address.change_prefix at hab
    rcases ArrayString_new_cases p with ⟨hok, _⟩ | ⟨herr, _⟩
    · simp only [hok] at hab
      cases a with
      | base bb pp => cases hab; rfl
      | derived bb pp => cases hab; rfl
    · simp only [herr] at hab
      cases a <;> simp_all

/-- Witness for C6 at a concrete input: a 3-byte slice is rejected with
`BytesDecodeErrorWrongLength`. -/
theorem claim_C6_witness :
    Address.from_slice [1, 2, 3] "cosmos" =
      .error .bytesDecodeErrorWrongLength :=
  claim_C6.2.1 [1, 2, 3] "cosmos" (by decide) (by decide)

/-! ## Claim C10: odd-length hex strings -/

theorem except_ok_bind {ε α β : Type _} (v : α) (g : α → Except ε β) :
    (Except.ok (ε := ε) v >>= g) = g v := rfl

theorem hexVal_isSome (c : Char) (h : isHexDigitCh c = true) :
    ∃ v, hexVal c = some v := by
  unfold isHexDigitCh at h
  unfold hexVal
  rcases Bool.or_eq_true _ _ |>.mp h with h1 | h2
  · rcases Bool.or_eq_true _ _ |>.mp h1 with h3 | h4
    · rw [if_pos h3]
      exact ⟨_, rfl⟩
    · by_cases h5 : (48 ≤ c.toNat && c.toNat ≤ 57) = true
      · rw [if_pos h5]
        exact ⟨_, rfl⟩
      · rw [if_neg (by simp_all), if_pos h4]
        exact ⟨_, rfl⟩
  · by_cases h5 : (48 ≤ c.toNat && c.toNat ≤ 57) = true
    · rw [if_pos h5]
      exact ⟨_, rfl⟩
    · by_cases h6 : (97 ≤ c.toNat && c.toNat ≤ 102) = true
      · rw [if_neg (by simp_all), if_pos h6]
        exact ⟨_, rfl⟩
      · rw [if_neg (by simp_all), if_neg (by simp_all), if_pos h2]
        exact ⟨_, rfl⟩

theorem chunkAux_short (k : Nat) :
    ∀ (l acc : List α) (cnt : Nat), l.length < cnt → (acc = [] → l ≠ []) →
      chunkAux k acc cnt l = [acc.reverse ++ l] := by
  intro l
  induction l with
  | nil =>
      intro acc cnt _ hne
      have hacc : acc ≠ [] := by
        intro hc
        exact hne hc rfl
      show (if acc.isEmpty then [] else [acc.reverse]) = [acc.reverse ++ []]
      rw [if_neg (by simpa using hacc)]
      simp
  | cons x xs ih =>
      intro acc cnt hlt _
      have hgt : ¬ (cnt ≤ 1) := by
        simp only [List.length_cons] at hlt
        omega
      show (if cnt ≤ 1 then ((x :: acc).reverse) :: chunkAux k [] k xs
        else chunkAux k (x :: acc) (cnt - 1) xs) = [acc.reverse ++ x :: xs]
      rw [if_neg hgt]
      rw [ih (x :: acc) (cnt - 1)
        (by simp only [List.length_cons] at hlt; omega)
        (by intro hc; cases hc)]
      simp

/-- The chunks produced by `hex_str_to_bytes` over a hex-digit string all
parse, and their count is `⌈n/2⌉`. -/
theorem hexChunks_ok :
    ∀ (n : Nat) (l : List Char), l.length ≤ n →
      (∀ c ∈ l, isHexDigitCh c = true) →
      ∃ bs, (chunkList 2 l).mapM parseHexChunk = Except.ok bs ∧
        bs.length = (l.length + 1) / 2 := by
  intro n
  induction n with
  | zero =>
      intro l hl _
      have : l = [] := List.eq_nil_of_length_eq_zero (by omega)
      subst this
      exact ⟨[], rfl, rfl⟩
  | succ n ihn =>
      intro l hl hhex
      match l with
      | [] => exact ⟨[], rfl, rfl⟩
      | [c] =>
          have hone : chunkList 2 [c] = [[c]] :=
            chunkAux_short 2 [c] [] 2 (by simp) (fun _ => by simp)
          rw [hone]
          obtain ⟨v, hv⟩ := hexVal_isSome c (hhex c (by simp))
          have hp : parseHexChunk [c] = Except.ok v := by
            simp only [parseHexChunk, hv]
          refine ⟨[v], ?_, by simp⟩
          simp only [List.mapM_cons, List.mapM_nil, hp, except_ok_bind]
          rfl
      | c1 :: c2 :: rest =>
          have hcons : chunkList 2 (c1 :: c2 :: rest) =
              [c1, c2] :: chunkList 2 rest := by
            rw [chunkList_cons 2 (by norm_num) _ (by simp)]
            rfl
          rw [hcons]
          obtain ⟨v1, hv1⟩ := hexVal_isSome c1 (hhex c1 (by simp))
          obtain ⟨v2, hv2⟩ := hexVal_isSome c2 (hhex c2 (by simp))
          have hne1 : c1 ≠ '+' := by
            intro hc
            have := hhex c1 (by simp)
            rw [hc] at this
            exact absurd this (by decide)
          obtain ⟨bs, hbs, hlen⟩ := ihn rest
            (by simp only [List.length_cons] at hl; omega)
            (fun c hc => hhex c (by simp [hc]))
          have hparse : parseHexChunk [c1, c2] =
              Except.ok (16 * v1 + v2) := by
            simp only [parseHexChunk]
            rw [if_neg hne1, hv1, hv2]
          refine ⟨(16 * v1 + v2) :: bs, ?_, ?_⟩
          · simp only [List.mapM_cons, hparse, except_ok_bind, hbs]
            rfl
          · simp only [List.length_cons, hlen]
            omega

/-- C10: `hex_str_to_bytes` succeeds on every string of hex digits, odd
lengths included — a string of `n` digits parses to `⌈n/2⌉` bytes, with a
lone trailing digit parsed as its own byte (`"abc"` gives `[0xab, 0x0c]`);
consequently `Address::from_str` accepts a 39-hex-digit string as a 20-byte
address with the default `"cosmos"` prefix. -/
theorem claim_C10 :
    (∀ s : String, (∀ c ∈ s.toList, isHexDigitCh c = true) →
      ∃ bs, hex_str_to_bytes s = .ok bs ∧
        bs.length = (s.toList.length + 1) / 2) ∧
    hex_str_to_bytes "abc" = .ok [0xab, 0x0c] ∧
    (∀ s : String, s.toList.length = 39 →
      (∀ c ∈ s.toList, isHexDigitCh c = true) →
      ∃ a, Address.from_str s = .ok a ∧ a.getBytes.length = 20 ∧
        a.getPfx = "cosmos") := by
  have hmain : ∀ s : String, (∀ c ∈ s.toList, isHexDigitCh c = true) →
      ∃ bs, hex_str_to_bytes s = .ok bs ∧
        bs.length = (s.toList.length + 1) / 2 := by
    intro s hhex
    have hnostrip : ¬ (s.toList.take 2 = ['0', 'x']) := by
      intro hc
      have hx : 'x' ∈ s.toList.take 2 := by
        rw [hc]
        simp
      have := hhex 'x' (List.mem_of_mem_take hx)
      exact absurd this (by decide)
    simp only [hex_str_to_bytes]
    rw [if_neg hnostrip]
    exact hexChunks_ok s.toList.length s.toList (le_refl _) hhex
  refine ⟨hmain, by decide, ?_⟩
  intro s hlen hhex
  obtain ⟨bs, hbs, hbslen⟩ := hmain s hhex
  have hnonhex : containsNonHexChars s = false := by
    unfold containsNonHexChars
    rw [List.any_eq_false]
    intro c hc
    rw [hhex c hc]
    simp
  have hbs20 : bs.length = 20 := by
    rw [hbslen, hlen]
  refine ⟨.base bs ⟨"cosmos"⟩, ?_, by simp [Address.getBytes, hbs20], rfl⟩
  unfold Address.from_str
  rw [hnonhex]
  simp only [Bool.false_eq_true, if_false, hbs]
  unfold Address.from_slice DEFAULT_PREFIX
  rw [if_pos hbs20]
  have := (ArrayString_new_cases "cosmos").resolve_right
    (fun ⟨_, hgt⟩ => by revert hgt; decide)
  rw [this.1]

/-- Witness for C10 at a concrete 39-hex-digit string. -/
theorem claim_C10_witness :
    ∃ a, Address.from_str "aaaaaaaaaaaaaaaaaaaaaaaaaaaaaaaaaaaaaaa" = .ok a ∧
      a.getBytes.length = 20 ∧ a.getPfx = "cosmos" :=
  claim_C10.2.2 "aaaaaaaaaaaaaaaaaaaaaaaaaaaaaaaaaaaaaaa" (by decide)
    (by decide)

/-! ## Claim C4: Cosmos address derivation from a public key -/

theorem Address_from_slice_ok (bytes : List Nat) (p : String) (a : Address)
    (h : Address.from_slice bytes p = .ok a) : a.getBytes = bytes := by
  unfold Address.from_slice at h
  rcases ArrayString_new_cases p with ⟨hok, _⟩ | ⟨herr, _⟩
  · by_cases h20 : bytes.length = 20
    · rw [if_pos h20, hok] at h
      cases h
      rfl
    · rw [if_neg h20] at h
      by_cases h32 : bytes.length = 32
      · rw [if_pos h32, hok] at h
        cases h
        rfl
      · rw [if_neg h32] at h
        cases h
  · by_cases h20 : bytes.length = 20
    · rw [if_pos h20, herr] at h
      cases h
    · rw [if_neg h20] at h
      by_cases h32 : bytes.length = 32
      · rw [if_pos h32, herr] at h
        cases h
      · rw [if_neg h32] at h
        cases h

theorem ripemd160_length (msg : List Nat) : (ripemd160 msg).length = 20 := by
  simp [ripemd160, natToLeBytes, natToBeBytes_length]

theorem utf8Go_append (a b : List Char) :
    String.utf8ByteSize.go (a ++ b) =
      String.utf8ByteSize.go a + String.utf8ByteSize.go b := by
  induction a with
  | nil => simp [String.utf8ByteSize.go]
  | cons c cs ih =>
      show String.utf8ByteSize.go (cs ++ b) + c.utf8Size = _
      rw [ih]
      show _ = String.utf8ByteSize.go cs + c.utf8Size +
        String.utf8ByteSize.go b
      omega

theorem utf8Go_take_le (l : List Char) (n : Nat) :
    String.utf8ByteSize.go (l.take n) ≤ String.utf8ByteSize.go l := by
  conv_rhs => rw [← List.take_append_drop n l]
  rw [utf8Go_append]
  omega

theorem utf8Go_trimEndAux_le :
    ∀ (fuel : Nat) (l : List Char),
      String.utf8ByteSize.go (trimEndAux fuel l) ≤
        String.utf8ByteSize.go l := by
  intro fuel
  induction fuel with
  | zero => intro l; exact le_refl _
  | succ f ih =>
      intro l
      show String.utf8ByteSize.go
        (if listEndsWith l pubChars then trimEndAux f (l.take (l.length - 3))
         else l) ≤ _
      by_cases h : listEndsWith l pubChars
      · rw [if_pos h]
        exact le_trans (ih _) (utf8Go_take_le l _)
      · rw [if_neg h]

theorem trimEndPub_of_not_endsWith (l : List Char)
    (h : listEndsWith l pubChars = false) : trimEndPub l = l := by
  unfold trimEndPub
  cases hl : l.length with
  | zero => rfl
  | succ n =>
      show (if listEndsWith l pubChars then _ else l) = l
      rw [h]
      simp

/-- C4 (amended): `to_address_with_prefix` produces an address whose 20
payload bytes are `RIPEMD160(SHA-256(compressed key))`; `to_address` uses
the stored prefix with **all** trailing `"pub"` suffixes stripped
(`trim_end_matches` removes the suffix repeatedly, e.g. `"cosmospubpub"`
becomes `"cosmos"`, not `"cosmospub"`). -/
theorem claim_C4 :
    (∀ (k : CosmosPublicKey) (p : String) (a : Address),
      CosmosPublicKey.to_address_with_prefix k p = .ok a →
      a.getBytes = ripemd160 (sha256 k.bytes) ∧ a.getBytes.length = 20) ∧
    (∀ k : CosmosPublicKey, k.pfx.str.utf8ByteSize ≤ 32 →
      (CosmosPublicKey.to_address k).getBytes =
        ripemd160 (sha256 k.bytes) ∧
      (CosmosPublicKey.to_address k).getPfx =
        String.mk (trimEndPub k.pfx.str.toList)) := by
  constructor
  · intro k p a ha
    have := Address_from_slice_ok _ _ _ ha
    refine ⟨this, ?_⟩
    rw [this]
    exact ripemd160_length _
  · intro k hsize
    rcases k with ⟨kb, ⟨⟨pl⟩⟩⟩
    have hsize2 : String.utf8ByteSize.go pl ≤ 32 := hsize
    simp only [CosmosPublicKey.to_address, String.toList]
    by_cases hends : listEndsWith pl pubChars
    · rw [if_pos hends]
      have hpf : (String.mk (trimEndPub pl)).utf8ByteSize ≤ 32 := by
        show String.utf8ByteSize.go (trimEndPub pl) ≤ 32
        exact le_trans (utf8Go_trimEndAux_le pl.length pl) hsize2
      have hok := (ArrayString_new_cases
        (String.mk (trimEndPub pl))).resolve_right
        (fun ⟨_, hgt⟩ => by omega)
      have hfs : CosmosPublicKey.to_address_with_prefix
          ⟨kb, ⟨String.mk pl⟩⟩ (String.mk (trimEndPub pl)) =
          .ok (.base (ripemd160 (sha256 kb)) ⟨String.mk (trimEndPub pl)⟩) := by
        unfold CosmosPublicKey.to_address_with_prefix Address.from_slice
        rw [if_pos (ripemd160_length _), hok.1]
      rw [hfs]
      exact ⟨rfl, rfl⟩
    · rw [if_neg hends]
      have hok := (ArrayString_new_cases (String.mk pl)).resolve_right
        (fun ⟨_, hgt⟩ => by
          have hgt2 : 32 < String.utf8ByteSize.go pl := hgt
          omega)
      have hfs : CosmosPublicKey.to_address_with_prefix
          ⟨kb, ⟨String.mk pl⟩⟩ (String.mk pl) =
          .ok (.base (ripemd160 (sha256 kb)) ⟨String.mk pl⟩) := by
        unfold CosmosPublicKey.to_address_with_prefix Address.from_slice
        rw [if_pos (ripemd160_length _), hok.1]
      rw [hfs]
      refine ⟨rfl, ?_⟩
      show (String.mk pl) = String.mk (trimEndPub pl)
      rw [trimEndPub_of_not_endsWith pl (by simpa using hends)]

/-- C4 counterexample: the claim's single-suffix reading fails.  For the
stored prefix `"cosmospubpub"` the code derives the address prefix
`"cosmos"`, not `"cosmospub"`. -/
theorem claim_C4_counterexample :
    (CosmosPublicKey.to_address
        ⟨List.replicate 33 0, ⟨"cosmospubpub"⟩⟩).getPfx ≠
      String.mk (claimedStripPub "cosmospubpub".toList) := by
  decide

/-- Witness for C4 at a concrete key. -/
theorem claim_C4_witness :
    (CosmosPublicKey.to_address
        ⟨List.replicate 33 0, ⟨"cosmospub"⟩⟩).getBytes =
      ripemd160 (sha256 (CosmosPublicKey.mk (List.replicate 33 0)
        ⟨"cosmospub"⟩).bytes) ∧
    (CosmosPublicKey.to_address
        ⟨List.replicate 33 0, ⟨"cosmospub"⟩⟩).getPfx =
      String.mk (trimEndPub (CosmosPublicKey.mk (List.replicate 33 0)
        ⟨"cosmospub"⟩).pfx.str.toList) :=
  claim_C4.2 (CosmosPublicKey.mk (List.replicate 33 0) ⟨"cosmospub"⟩)
    (by decide)

/-- C9: a `TxResponse` with codespace `"sdk"`, code `13`, `gas_used` not
exceeding `gas_wanted`, and raw log
`"insufficient fees; got: 1foo required: 50000ualtg,250000ufootoken: insufficient fee"`
makes `determine_min_fees_and_gas` return `InsufficientFees` with exactly
`[Coin{50000,"ualtg"}, Coin{250000,"ufootoken"}]`, the amounts taken from the
third colon-separated field of the raw log. -/
theorem claim_C9 (resp : TxResponse)
    (hcs : resp.codespace = "sdk")
    (hcode : resp.code = 13)
    (hgas : resp.gas_used ≤ resp.gas_wanted)
    (hlog : resp.raw_log =
      "insufficient fees; got: 1foo required: 50000ualtg,250000ufootoken: insufficient fee") :
    determine_min_fees_and_gas resp =
      some (FeeInfo.InsufficientFees
        [⟨50000, "ualtg"⟩, ⟨250000, "ufootoken"⟩]) := by
  unfold determine_min_fees_and_gas
  rw [if_neg (not_lt.mpr hgas), hcs, hcode, hlog]
  decide

theorem hdPathLoop_spec (pser : List Nat → List Nat) (p : String)
    (segs : List (List Char)) :
    ∀ (sk cc : List Nat),
      (segs.all segParses = true →
        ∃ k, hdPathLoop pser p segs sk cc = Except.ok k) ∧
      (segs.all segParses = false →
        hdPathLoop pser p segs sk cc =
          Except.error (PrivateKeyErr.hdWalletError
            (HdWalletError.invalidPathSpec p))) := by
  induction segs with
  | nil =>
      intro sk cc
      exact ⟨fun _ => ⟨sk, rfl⟩, fun h => by simp [List.all] at h⟩
  | cons seg rest ih =>
      intro sk cc
      by_cases hs : segParses seg = true
      · obtain ⟨i, hp⟩ : ∃ i, parseU32 (if seg.contains aposCh then
            trimMatchesCh aposCh seg else seg) = some i := by
          unfold segParses at hs
          cases hq : parseU32 (if seg.contains aposCh then
              trimMatchesCh aposCh seg else seg) with
          | none => rw [hq] at hs; exact absurd hs (by simp [Option.isSome])
          | some i => exact ⟨i, rfl⟩
        constructor
        · intro h
          simp only [List.all_cons, Bool.and_eq_true] at h
          obtain ⟨k, hk⟩ := (ih _ _).1 h.2
          refine ⟨k, ?_⟩
          unfold hdPathLoop
          rw [hp]
          exact hk
        · intro h
          simp only [List.all_cons, hs, Bool.true_and] at h
          unfold hdPathLoop
          rw [hp]
          exact (ih _ _).2 h
      · have hs2 : segParses seg = false := by
          cases hq : segParses seg with
          | true => exact absurd hq hs
          | false => rfl
        have hp : parseU32 (if seg.contains aposCh then
            trimMatchesCh aposCh seg else seg) = none := by
          unfold segParses at hs2
          cases hq : parseU32 (if seg.contains aposCh then
              trimMatchesCh aposCh seg else seg) with
          | none => rfl
          | some i => rw [hq] at hs2; exact absurd hs2 (by simp [Option.isSome])
        constructor
        · intro h
          simp only [List.all_cons, hs2, Bool.false_and] at h
          exact Bool.noConfusion h
        · intro _
          unfold hdPathLoop
          rw [hp]

/-- C7 (amended): for a valid mnemonic, `from_hd_wallet_path` fails with
`InvalidPathSpec` exactly on the paths rejected by its lenient check — the
path must start with `m`, contain no backslash, and have every
`/`-separated segment after the first parse as a `u32` once apostrophes are
stripped; every path passing that check is accepted, including ones outside
the spec's grammar `m/<segment>(/<segment>)*` (e.g. arbitrary text in the
first segment, which is discarded). -/
theorem claim_C7 (pubkeySer : List Nat → List Nat) (seed : List Nat)
    (hd_path : String) :
    (acceptedPath hd_path.toList = false →
      from_hd_wallet_path pubkeySer (Except.ok seed) hd_path =
        Except.error (PrivateKeyErr.hdWalletError
          (HdWalletError.invalidPathSpec hd_path))) ∧
    (acceptedPath hd_path.toList = true →
      ∃ k, from_hd_wallet_path pubkeySer (Except.ok seed) hd_path =
        Except.ok k) := by
  unfold from_hd_wallet_path acceptedPath
  cases hA : (match hd_path.toList.head? with
      | some c => c == 'm'
      | none => false) with
  | false =>
      rw [if_pos (show (!false || hd_path.toList.contains backslashCh) = true
        from rfl)]
      refine ⟨fun _ => rfl, fun h => ?_⟩
      simp at h
  | true =>
      cases hB : hd_path.toList.contains backslashCh with
      | true =>
          rw [if_pos (show ((!true || true) = true) from rfl)]
          refine ⟨fun _ => rfl, fun h => ?_⟩
          simp at h
      | false =>
          rw [if_neg (show ¬ ((!true || false) = true) from
            fun hc => Bool.noConfusion hc)]
          constructor
          · intro h
            simp only [Bool.true_and, Bool.not_false] at h
            exact (hdPathLoop_spec pubkeySer hd_path _ _ _).2 h
          · intro h
            simp only [Bool.true_and, Bool.not_false] at h
            exact (hdPathLoop_spec pubkeySer hd_path _ _ _).1 h

/-- Counterexample for C7 as stated: the path `"mxyz/0"` does not conform
to the claimed grammar, yet the code accepts it (the junk after `m` sits in
the discarded first segment). -/
theorem claim_C7_counterexample :
    claimedPathGrammar "mxyz/0".toList = false ∧
    (from_hd_wallet_path (fun _ => List.replicate 33 2)
        (Except.ok (List.replicate 64 0)) "mxyz/0").isOk = true := by
  constructor
  · decide
  · decide

/-- Witness for C7: a malformed segment is rejected with `InvalidPathSpec`,
and a well-formed path is accepted. -/
theorem claim_C7_witness :
    (from_hd_wallet_path (fun _ => List.replicate 33 2)
        (Except.ok (List.replicate 64 0)) "m/x" =
      Except.error (PrivateKeyErr.hdWalletError
        (HdWalletError.invalidPathSpec "m/x"))) ∧
    (∃ k, from_hd_wallet_path (fun _ => List.replicate 33 2)
        (Except.ok (List.replicate 64 0)) "m/44" = Except.ok k) :=
  ⟨(claim_C7 (fun _ => List.replicate 33 2) (List.replicate 64 0) "m/x").1
      (by decide),
   (claim_C7 (fun _ => List.replicate 33 2) (List.replicate 64 0) "m/44").2
      (by decide)⟩

/-- C1: for every message list, `MessageArgs` and memo, `sign_std_msg`
returns the protobuf serialization of a `TxRaw` whose `body_bytes` is the
serialization of `TxBody` ⟨the messages, the memo, `args.timeout_height`,
empty extension-option lists⟩, whose `auth_info_bytes` is the serialization
of an `AuthInfo` with exactly one `SignerInfo` ⟨the signer's compressed
public key in an `Any`, mode `Single` of value 1 (`SIGN_MODE_DIRECT`),
`args.sequence`⟩ plus the fee and tip, and whose single signature is the
64-byte compact deterministic ECDSA signature (`r`, then `s`, each 32 bytes
big-endian) over the SHA-256 digest of the serialized `SignDoc`
⟨body bytes, auth-info bytes, `args.chain_id`, `args.account_number`⟩. -/
theorem claim_C1 (pubkeySer : List Nat → List Nat)
    (ecdsaSign : List Nat → List Nat → Nat × Nat) (key : List Nat)
    (messages : List Msg) (args : MessageArgs) (memo : String) :
    let bodyBuf := encodeTxBody ⟨messages.map (fun m => m.any), memo,
        args.timeout_height, [], []⟩
    let authBuf := encodeAuthInfo ⟨[⟨some ⟨"/cosmos.crypto.secp256k1.PubKey",
        encodeSecp256k1PubKey (pubkeySer key)⟩, some ⟨some ⟨1⟩⟩,
        args.sequence⟩], some (protoFeeOfFee args.fee),
        args.tip.map protoTipOfTip⟩
    let rs := ecdsaSign (sha256 (encodeSignDoc ⟨bodyBuf, authBuf,
        args.chain_id, args.account_number⟩)) key
    let sig := natToBeBytes 32 rs.1 ++ natToBeBytes 32 rs.2
    sign_std_msg pubkeySer ecdsaSign key messages args memo =
      encodeTxRaw ⟨bodyBuf, authBuf, [sig]⟩ ∧ sig.length = 64 := by
  intro bodyBuf authBuf rs sig
  constructor
  · rfl
  · show (natToBeBytes 32 rs.1 ++ natToBeBytes 32 rs.2).length = 64
    rw [List.length_append, natToBeBytes_length, natToBeBytes_length]

theorem hex_str_to_bytes_all_hex (s : String)
    (h : containsNonHexChars s = false) :
    ∃ bs, hex_str_to_bytes s = Except.ok bs ∧
      bs.length = (s.toList.length + 1) / 2 := by
  have hall : ∀ c ∈ s.toList, isHexDigitCh c = true := by
    intro c hc
    unfold containsNonHexChars at h
    by_contra hcx
    have hany : s.toList.any (fun c => ! isHexDigitCh c) = true :=
      List.any_eq_true.mpr ⟨c, hc, by
        cases hh : isHexDigitCh c with
        | true => exact absurd hh hcx
        | false => rfl⟩
    rw [hany] at h
    exact Bool.noConfusion h
  have hns : ¬ (s.toList.take 2 = ['0', 'x']) := by
    intro ht
    have hx : 'x' ∈ s.toList :=
      List.take_subset 2 s.toList (by rw [ht]; simp)
    exact absurd (hall 'x' hx) (by decide)
  obtain ⟨bs, hbs, hlen⟩ := hexChunks_ok s.toList.length s.toList le_rfl hall
  refine ⟨bs, ?_, hlen⟩
  simp only [hex_str_to_bytes]
  rw [if_neg hns]
  exact hbs

/-- C8 (amended): `CosmosPrivateKey`'s `FromStr` accepts an all-hex string
of 64 — or 63, the final odd chunk parsing as its own byte — characters as
the raw 32-byte key (part 1); an all-hex string of any other length fails
with `HexDecodeErrorWrongLength` rather than being interpreted as a
mnemonic (part 2); a `"0x"`-prefixed string whose remainder is 63 or 64 hex
characters is likewise accepted as the raw 32-byte key (part 3); only a
string containing a non-hex character, when the hex parse fails, is handed
to `from_phrase(s, "")` (part 4). -/
theorem claim_C8 (pser : List Nat → List Nat)
    (mseed : String → String → Except PrivateKeyErr (List Nat))
    (s : String) :
    (containsNonHexChars s = false →
      s.toList.length = 63 ∨ s.toList.length = 64 →
      ∃ bytes, CosmosPrivateKey.from_str pser mseed s = Except.ok bytes ∧
        bytes.length = 32) ∧
    (containsNonHexChars s = false →
      s.toList.length ≠ 63 → s.toList.length ≠ 64 →
      CosmosPrivateKey.from_str pser mseed s =
        Except.error PrivateKeyErr.hexDecodeErrorWrongLength) ∧
    (∀ t : List Char, s.toList = '0' :: 'x' :: t →
      (∀ c ∈ t, isHexDigitCh c = true) →
      t.length = 63 ∨ t.length = 64 →
      ∃ bytes, CosmosPrivateKey.from_str pser mseed s = Except.ok bytes ∧
        bytes.length = 32) ∧
    (∀ e, containsNonHexChars s = true → hex_str_to_bytes s = Except.error e →
      CosmosPrivateKey.from_str pser mseed s =
        from_phrase pser mseed s "") := by
  refine ⟨?_, ?_, ?_, ?_⟩
  · intro hhex hlen
    obtain ⟨bs, hbs, hblen⟩ := hex_str_to_bytes_all_hex s hhex
    have h32 : bs.length = 32 := by
      cases hlen with
      | inl h => rw [h] at hblen; omega
      | inr h => rw [h] at hblen; omega
    exact ⟨bs, by simp [CosmosPrivateKey.from_str, hbs, h32], h32⟩
  · intro hhex h63 h64
    obtain ⟨bs, hbs, hblen⟩ := hex_str_to_bytes_all_hex s hhex
    have hne : bs.length ≠ 32 := by omega
    simp [CosmosPrivateKey.from_str, hbs, hne]
  · intro t ht hthex htlen
    obtain ⟨bs, hbs0, hblen⟩ := hexChunks_ok t.length t le_rfl hthex
    have hbs : hex_str_to_bytes s = Except.ok bs := by
      simp only [hex_str_to_bytes, ht]
      rw [if_pos (show (('0' :: 'x' :: t : List Char)).take 2 = ['0', 'x']
        from rfl)]
      exact hbs0
    have h32 : bs.length = 32 := by
      cases htlen with
      | inl h => rw [h] at hblen; omega
      | inr h => rw [h] at hblen; omega
    exact ⟨bs, by simp [CosmosPrivateKey.from_str, hbs, h32], h32⟩
  · intro e hnonhex herr
    simp [CosmosPrivateKey.from_str, herr, hnonhex]

/-- Counterexample for C8 as stated: `"aabb"` is not 64 hex characters, so
the claim says it behaves as `from_phrase("aabb", "")`, which reports a
mnemonic error; the code instead reports `HexDecodeErrorWrongLength`. -/
theorem claim_C8_counterexample :
    CosmosPrivateKey.from_str (fun _ => List.replicate 33 2)
        (mnemonicSeedModel (fun _ _ => Except.error Bip39Error.invalidChecksum))
        "aabb" = Except.error PrivateKeyErr.hexDecodeErrorWrongLength ∧
    from_phrase (fun _ => List.replicate 33 2)
        (mnemonicSeedModel (fun _ _ => Except.error Bip39Error.invalidChecksum))
        "aabb" "" =
      Except.error (PrivateKeyErr.invalidMnemonic
        (Bip39Error.badWordCount 1)) := by
  exact ⟨by decide, by decide⟩

/-- Witness for C8 at concrete strings: 64 hex characters, 63 hex
characters, 3 hex characters, `"0x"` followed by 64 hex characters, and a
non-hex string. -/
theorem claim_C8_witness :
    (∃ bytes, CosmosPrivateKey.from_str (fun _ => List.replicate 33 2)
        (mnemonicSeedModel (fun _ _ => Except.error Bip39Error.invalidChecksum))
        (String.mk (List.replicate 64 'a')) = Except.ok bytes ∧
        bytes.length = 32) ∧
    (∃ bytes, CosmosPrivateKey.from_str (fun _ => List.replicate 33 2)
        (mnemonicSeedModel (fun _ _ => Except.error Bip39Error.invalidChecksum))
        (String.mk (List.replicate 63 'b')) = Except.ok bytes ∧
        bytes.length = 32) ∧
    (CosmosPrivateKey.from_str (fun _ => List.replicate 33 2)
        (mnemonicSeedModel (fun _ _ => Except.error Bip39Error.invalidChecksum))
        "abc" = Except.error PrivateKeyErr.hexDecodeErrorWrongLength) ∧
    (∃ bytes, CosmosPrivateKey.from_str (fun _ => List.replicate 33 2)
        (mnemonicSeedModel (fun _ _ => Except.error Bip39Error.invalidChecksum))
        (String.mk ('0' :: 'x' :: List.replicate 64 'a')) = Except.ok bytes ∧
        bytes.length = 32) ∧
    (CosmosPrivateKey.from_str (fun _ => List.replicate 33 2)
        (mnemonicSeedModel (fun _ _ => Except.error Bip39Error.invalidChecksum))
        "zz" =
      from_phrase (fun _ => List.replicate 33 2)
        (mnemonicSeedModel (fun _ _ => Except.error Bip39Error.invalidChecksum))
        "zz" "") :=
  ⟨(claim_C8 (fun _ => List.replicate 33 2)
      (mnemonicSeedModel (fun _ _ => Except.error Bip39Error.invalidChecksum))
      (String.mk (List.replicate 64 'a'))).1 (by decide) (by decide),
   (claim_C8 (fun _ => List.replicate 33 2)
      (mnemonicSeedModel (fun _ _ => Except.error Bip39Error.invalidChecksum))
      (String.mk (List.replicate 63 'b'))).1 (by decide) (by decide),
   (claim_C8 (fun _ => List.replicate 33 2)
      (mnemonicSeedModel (fun _ _ => Except.error Bip39Error.invalidChecksum))
      "abc").2.1 (by decide) (by decide) (by decide),
   (claim_C8 (fun _ => List.replicate 33 2)
      (mnemonicSeedModel (fun _ _ => Except.error Bip39Error.invalidChecksum))
      (String.mk ('0' :: 'x' :: List.replicate 64 'a'))).2.2.1
      (List.replicate 64 'a') rfl (by decide) (by decide),
   (claim_C8 (fun _ => List.replicate 33 2)
      (mnemonicSeedModel (fun _ _ => Except.error Bip39Error.invalidChecksum))
      "zz").2.2.2 ByteDecodeErr.parseError (by decide) (by decide)⟩

/-- Witness for C9 at a concrete `TxResponse`. -/
theorem claim_C9_witness :
    determine_min_fees_and_gas
        ⟨"sdk", 13,
          "insufficient fees; got: 1foo required: 50000ualtg,250000ufootoken: insufficient fee",
          600000, 599999⟩ =
      some (FeeInfo.InsufficientFees
        [⟨50000, "ualtg"⟩, ⟨250000, "ufootoken"⟩]) :=
  claim_C9
    ⟨"sdk", 13,
      "insufficient fees; got: 1foo required: 50000ualtg,250000ufootoken: insufficient fee",
      600000, 599999⟩ rfl rfl (by decide) rfl

end DS
